import Mathlib

/- Verification of the scriptyscript interpreter core (compiler + runtime).

   The definitions below are a shallow embedding of the Rust sources:
     src/src/compiler/{ast.rs, parser.rs, translator.rs, mod.rs}
     src/src/runtime/{bytecode.rs, executor.rs, state.rs}
     src/src/runtime/types/{primitive.rs, object.rs, function.rs, operations.rs, utilities.rs}
     src/src/stdlib/mod.rs
   Conventions used throughout:
     - Rust `i64` is modeled as `Int`; where the source relies on wrapping
       two's-complement arithmetic the result is normalized with `wrap64`.
     - Rust `f64` is Lean's `Float` (IEEE-754 binary64).  The three f64
       operations the host supplies but Lean's core library lacks
       (`%` on floats, the saturating `as i64` cast, and `f64::from_str`)
       are carried as fields of a `FloatHost` parameter.
     - A Rust panic (`unwrap`, `expect`, `panic!`, `todo!`, `unimplemented!`)
       is modeled as the `none` of an `Option` result, or as the dedicated
       `fatal` constructor of an execution result.
     - Potential nontermination of the executor (`loop {}`) is modeled with a
       fuel parameter; exhausted fuel yields `timeout`.
-/

set_option maxHeartbeats 1000000

namespace Scripty

/-! ## Machine integers -/

/-- Least representable `i64` value, `-2^63`. -/
def i64Min : Int := -(2 ^ 63)

/-- Greatest representable `i64` value, `2^63 - 1`. -/
def i64Max : Int := 2 ^ 63 - 1

/-- Greatest representable `u64` value, `2^64 - 1`. -/
def u64Max : Nat := 2 ^ 64 - 1

/-- Two's-complement wrap-around of an integer into the `i64` range.
The spec (§4.3, §9) leaves integer overflow to "the host's signed-integer
default" and sanctions assuming two's-complement wraparound, which is what the
release-mode Rust build does. -/
def wrap64 (x : Int) : Int := (x + 2 ^ 63) % 2 ^ 64 - 2 ^ 63

/-- Host-supplied f64 operations that Lean's core `Float` API does not expose.
`rem` is Rust's `%` on `f64`, `toI64` is Rust's saturating-truncating
`as i64` cast, and `ofStr` is `f64::from_str`. -/
structure FloatHost where
  rem : Float → Float → Float
  toI64 : Float → Int
  ofStr : List Char → Option Float

/-- A concrete (arbitrary) instantiation of the host f64 operations, used by
closed witness statements that never exercise float arithmetic. -/
def trivialFloatHost : FloatHost :=
  { rem := fun _ _ => 0, toI64 := fun _ => 0, ofStr := fun _ => none }

/-! ## Value model (runtime/types) -/

/-- `Primitive` (primitive.rs). -/
inductive Primitive where
  | Nil
  | Integer (x : Int)
  | Float (x : Float)
  | String (x : String)
  | Boolean (x : Bool)

/-- `PartialEq for Primitive` (primitive.rs): variant-wise equality, floats
compared with the host `f64 ==` (Lean's `Float.beq`). -/
def Primitive.beq : Primitive → Primitive → Bool
  | .Nil, .Nil => true
  | .Integer a, .Integer b => a == b
  | .Float a, .Float b => a == b
  | .String a, .String b => a == b
  | .Boolean a, .Boolean b => a == b
  | _, _ => false

instance : BEq Primitive := ⟨Primitive.beq⟩

/-- `BinaryOperationKind` (compiler/ast.rs). -/
inductive BinaryOperationKind where
  | Add
  | Subtract
  | Multiply
  | Divide
  | Remainder
  | Power
  | And
  | Or
  | Equal
  | NotEqual
  | GreaterThan
  | GreaterThanOrEqual
  | LessThan
  | LessThanOrEqual
deriving DecidableEq

/-- `UnaryOperationKind` (compiler/ast.rs). -/
inductive UnaryOperationKind where
  | Negate
  | Not
deriving DecidableEq

/-- `OpCode` (runtime/bytecode.rs).  `Bytecode` is a wrapper around
`Vec<OpCode>`, modeled as `List OpCode`; nested control-flow opcodes carry
sub-bytecodes inline, so this is a tree. -/
inductive OpCode where
  | Load (name : String)
  | Store (name : String)
  | GetKey (key : String)
  | SetKey (key : String)
  | PushNil
  | PushString (x : String)
  | PushInteger (x : Int)
  | PushFloat (x : Float)
  | PushBool (x : Bool)
  | PushFunction (code : List OpCode)
  | BinaryOperation (kind : BinaryOperationKind)
  | UnaryOperation (kind : UnaryOperationKind)
  | Call (n : Nat)
  | Break
  | Continue
  | Return (n : Nat)
  | If (condition : List OpCode) (body : List OpCode) (else_body : Option (List OpCode))
  | For (initialization : Option (List OpCode)) (condition : Option (List OpCode))
        (increment : Option (List OpCode)) (body : List OpCode)
  | While (condition : List OpCode) (body : List OpCode)
  | Loop (body : List OpCode)

/-- `Bytecode` (runtime/bytecode.rs), the container around `Vec<OpCode>`. -/
abbrev Bytecode := List OpCode

mutual

/-- Structural equality of opcodes, as given by `#[derive(PartialEq)]` on
`OpCode`/`Bytecode` (runtime/bytecode.rs); floats compare with `f64 ==`. -/
def OpCode.beq : OpCode → OpCode → Bool
  | .Load a, .Load b => a == b
  | .Store a, .Store b => a == b
  | .GetKey a, .GetKey b => a == b
  | .SetKey a, .SetKey b => a == b
  | .PushNil, .PushNil => true
  | .PushString a, .PushString b => a == b
  | .PushInteger a, .PushInteger b => a == b
  | .PushFloat a, .PushFloat b => a == b
  | .PushBool a, .PushBool b => a == b
  | .PushFunction a, .PushFunction b => OpCode.beqList a b
  | .BinaryOperation a, .BinaryOperation b => a == b
  | .UnaryOperation a, .UnaryOperation b => a == b
  | .Call a, .Call b => a == b
  | .Break, .Break => true
  | .Continue, .Continue => true
  | .Return a, .Return b => a == b
  | .If c1 b1 e1, .If c2 b2 e2 =>
      OpCode.beqList c1 c2 && OpCode.beqList b1 b2 && OpCode.beqOpt e1 e2
  | .For i1 c1 n1 b1, .For i2 c2 n2 b2 =>
      OpCode.beqOpt i1 i2 && OpCode.beqOpt c1 c2 && OpCode.beqOpt n1 n2 && OpCode.beqList b1 b2
  | .While c1 b1, .While c2 b2 => OpCode.beqList c1 c2 && OpCode.beqList b1 b2
  | .Loop b1, .Loop b2 => OpCode.beqList b1 b2
  | _, _ => false

/-- Equality of bytecode sequences. -/
def OpCode.beqList : List OpCode → List OpCode → Bool
  | [], [] => true
  | a :: as', b :: bs' => OpCode.beq a b && OpCode.beqList as' bs'
  | _, _ => false

/-- Equality of optional bytecode sequences. -/
def OpCode.beqOpt : Option (List OpCode) → Option (List OpCode) → Bool
  | none, none => true
  | some a, some b => OpCode.beqList a b
  | _, _ => false

end

instance : BEq OpCode := ⟨OpCode.beq⟩

/-- `Function` (runtime/types/function.rs): a scripted function carrying its
bytecode, or a wrapped (native, Rust-side) function.  A native function is a
host function pointer; its identity is modeled by a tag, since `PartialEq for
Function` compares wrapped functions by pointer value. -/
inductive Function where
  | Scripted (bytecode : Bytecode)
  | Wrapped (id : Nat)

/-- `PartialEq for Function` (function.rs): scripted functions compare by
bytecode equality, wrapped functions by pointer identity, mixed kinds are
unequal. -/
def Function.beq : Function → Function → Bool
  | .Scripted a, .Scripted b => OpCode.beqList a b
  | .Wrapped a, .Wrapped b => a == b
  | _, _ => false

/-- `Object` (runtime/types/object.rs).  In the source an `Object` is a shared
mutable cell `Arc<Mutex<ObjectInner>>` holding an `Option<ObjectValue>` and an
optional metatable.  In the executable fragment embedded here objects are
never mutated in place: `set_value`/`set_metatable` have no callers, every
constructor in utilities.rs passes `metatable: None` and `value: Some(..)`,
and table-valued objects cannot be constructed at all (`utilities::table()` is
`todo!()`, and no opcode, literal or stdlib function builds a table).  Objects
are therefore modeled as immutable values with primitive or function content,
and the `Table` arms of the source's matches collapse into the non-table
(panicking or `false`) arms. -/
inductive Object where
  | Primitive (p : Primitive)
  | Function (f : Function)

/-- `Object::as_primitive` (object.rs). -/
def Object.as_primitive : Object → Option Scripty.Primitive
  | .Primitive p => some p
  | _ => none

/-- `Object::as_bool` (object.rs). -/
def Object.as_bool : Object → Option Bool
  | .Primitive (.Boolean x) => some x
  | _ => none

/-- `PartialEq for Object` (object.rs): primitives by value, functions as in
`Function.beq`; any other pairing is `false`. -/
def Object.beq : Object → Object → Bool
  | .Primitive a, .Primitive b => a == b
  | .Function a, .Function b => Function.beq a b
  | _, _ => false

/-! Object constructors (runtime/types/utilities.rs). -/

/-- `utilities::int` applied to an `i64` (`to_i64()` cannot fail there). -/
def int (x : Int) : Object := .Primitive (.Integer x)

/-- `utilities::int` applied to a `u64`: `value.to_i64().unwrap()` panics when
the value does not fit in an `i64`. -/
def intOfU64 (v : Nat) : Option Object :=
  if (v : Int) ≤ i64Max then some (int v) else none

/-- `utilities::float`. -/
def float (x : Float) : Object := .Primitive (.Float x)

/-- `utilities::string`. -/
def string (s : String) : Object := .Primitive (.String s)

/-- `utilities::nil`. -/
def nil : Object := .Primitive .Nil

/-- `utilities::boolean`. -/
def boolean (b : Bool) : Object := .Primitive (.Boolean b)

/-- `utilities::scripted_function`. -/
def scripted_function (code : Bytecode) : Object := .Function (.Scripted code)

/-! ## Primitive operations (primitive.rs `impl Add/Sub/Mul/Div/Rem`) -/

/-- Outcome of a primitive arithmetic operator.  The Rust operator returns
`Option<Primitive>` — `ok` is `Some`, `nil` is `None` (an incompatible
combination, later pushed as the nil object by `binary_arithmetic`) — and can
also panic inside (`fatal`): integer division by zero, and integer
`i64::MIN / -1` (or `% -1`) overflow. -/
inductive ArithResult where
  | ok (p : Primitive)
  | nil
  | fatal

/-- `impl Add for Primitive` (primitive.rs).  `Int + Int` wraps (see
`wrap64`); Int/Float mixes promote the integer with `as f64`
(`Float.ofInt`). -/
def Primitive.add : Primitive → Primitive → ArithResult
  | .Integer a, .Integer b => .ok (.Integer (wrap64 (a + b)))
  | .Integer a, .Float b => .ok (.Float (Float.ofInt a + b))
  | .Float a, .Integer b => .ok (.Float (a + Float.ofInt b))
  | .Float a, .Float b => .ok (.Float (a + b))
  | .String a, .String b => .ok (.String (a ++ b))
  | _, _ => .nil

/-- `impl Sub for Primitive` (primitive.rs). -/
def Primitive.sub : Primitive → Primitive → ArithResult
  | .Integer a, .Integer b => .ok (.Integer (wrap64 (a - b)))
  | .Integer a, .Float b => .ok (.Float (Float.ofInt a - b))
  | .Float a, .Integer b => .ok (.Float (a - Float.ofInt b))
  | .Float a, .Float b => .ok (.Float (a - b))
  | _, _ => .nil

/-- `impl Mul for Primitive` (primitive.rs). -/
def Primitive.mul : Primitive → Primitive → ArithResult
  | .Integer a, .Integer b => .ok (.Integer (wrap64 (a * b)))
  | .Integer a, .Float b => .ok (.Float (Float.ofInt a * b))
  | .Float a, .Integer b => .ok (.Float (a * Float.ofInt b))
  | .Float a, .Float b => .ok (.Float (a * b))
  | _, _ => .nil

/-- `impl Div for Primitive` (primitive.rs).  `a / b` on `i64` is truncated
division and panics when `b == 0` or when `a == i64::MIN && b == -1`. -/
def Primitive.div : Primitive → Primitive → ArithResult
  | .Integer a, .Integer b =>
      if b = 0 ∨ (a = i64Min ∧ b = -1) then .fatal else .ok (.Integer (a.tdiv b))
  | .Integer a, .Float b => .ok (.Float (Float.ofInt a / b))
  | .Float a, .Integer b => .ok (.Float (a / Float.ofInt b))
  | .Float a, .Float b => .ok (.Float (a / b))
  | _, _ => .nil

/-- `impl Rem for Primitive` (primitive.rs).  `a % b` on `i64` is the
truncated remainder (`Int.tmod`) and panics when `b == 0` or when
`a == i64::MIN && b == -1`; the float arms use the host `f64 %`. -/
def Primitive.rem (H : FloatHost) : Primitive → Primitive → ArithResult
  | .Integer a, .Integer b =>
      if b = 0 ∨ (a = i64Min ∧ b = -1) then .fatal else .ok (.Integer (a.tmod b))
  | .Integer a, .Float b => .ok (.Float (H.rem (Float.ofInt a) b))
  | .Float a, .Integer b => .ok (.Float (H.rem a (Float.ofInt b)))
  | .Float a, .Float b => .ok (.Float (H.rem a b))
  | _, _ => .nil

/-! ## Scopes and state (runtime/state.rs) -/

/-- The local-variable map of a frame (`HashMap<String, Object>`), modeled as
an association list whose insert replaces any previous binding of the key. -/
abbrev Locals := List (String × Object)

/-- `HashMap::get` on the locals map. -/
def lookupLocal (l : Locals) (name : String) : Option Object :=
  (l.find? (fun p => p.1 == name)).map (·.2)

/-- `HashMap::insert` on the locals map: overwrite any previous binding. -/
def insertLocal (l : Locals) (name : String) (v : Object) : Locals :=
  (name, v) :: l.filter (fun p => !(p.1 == name))

/-- `CallFrame` (state.rs): an operand stack and a local scope.  `operands`
holds the top of the stack first.  The source's `parent` pointer always
refers to the frame directly below in the state's stack (it is set that way
by `State::push_frame`, and frames are never re-parented), so the parent
chain is represented by the position of the frame in the state's list. -/
structure CallFrame where
  operands : List Object
  locals : Locals

/-- `CallFrame::push` (state.rs). -/
def CallFrame.push (f : CallFrame) (v : Object) : CallFrame :=
  { f with operands := v :: f.operands }

/-- `CallFrame::pop` (state.rs): `None` when the operand stack is empty. -/
def CallFrame.pop (f : CallFrame) : Option (Object × CallFrame) :=
  match f.operands with
  | [] => none
  | v :: rest => some (v, { f with operands := rest })

/-- `CallFrame::store_local` (state.rs): pop the top of the operand stack
(`unwrap` — panic on empty stack) and insert it into the local scope. -/
def CallFrame.store_local (f : CallFrame) (name : String) : Option CallFrame :=
  (f.pop).map fun vf => { vf.2 with locals := insertLocal vf.2.locals name vf.1 }

/-- `CallFrame::load` (state.rs): push the binding of `name` from this frame;
otherwise recursively `load` on the parent, then pop that value off the
parent's operand stack (`parent.pop().unwrap()` — `none` models the panic)
and push it here; if there is no parent, push nil.  The ancestors are
returned (possibly transiently modified and restored). -/
def CallFrame.load (name : String) :
    CallFrame → List CallFrame → Option (CallFrame × List CallFrame)
  | f, parents =>
    match lookupLocal f.locals name with
    | some x => some (f.push x, parents)
    | none =>
      match parents with
      | p :: ps =>
        match CallFrame.load name p ps with
        | some pr =>
          match pr.1.pop with
          | some vp => some (f.push vp.1, vp.2 :: pr.2)
          | none => none
        | none => none
      | [] => some (f.push nil, parents)

/-- `State` (state.rs): the stack of call frames.  The head of the list is
the current (top) frame — the source keeps the current frame last in its
`Vec`, here the orientation is reversed so the current frame is first, and
the global frame is the last element. -/
abbrev SState := List CallFrame

/-- `State::push` (state.rs): push onto the current frame's operand stack
(`expect("no call frame")` — `none` models the panic on an empty stack). -/
def State.push (s : SState) (v : Object) : Option SState :=
  match s with
  | [] => none
  | f :: rest => some (f.push v :: rest)

/-- `State::pop` (state.rs).  The result is `none` both when there is no call
frame (a panic in the source) and when the operand stack is empty (the
source returns `None`, and every executor call site immediately
`unwrap`s/`expect`s it). -/
def State.pop (s : SState) : Option (Object × SState) :=
  match s with
  | [] => none
  | f :: rest => (f.pop).map fun vf => (vf.1, vf.2 :: rest)

/-- `State::pop_n` (state.rs): pop `n` objects, first element of the result
is the former top of the stack; `none` models the `pop().unwrap()` panic on
underflow. -/
def State.pop_n (s : SState) : Nat → Option (List Object × SState)
  | 0 => some ([], s)
  | n + 1 =>
    match State.pop s with
    | some (v, s') =>
      match State.pop_n s' n with
      | some (vs, s'') => some (v :: vs, s'')
      | none => none
    | none => none

/-- `State::push_all` (state.rs): push in the given order, so the last
element ends on top. -/
def State.push_all (s : SState) : List Object → Option SState
  | [] => some s
  | v :: vs =>
    match State.push s v with
    | some s' => State.push_all s' vs
    | none => none

/-- `State::push_frame` (state.rs): a fresh frame with no locals, whose
parent is the previous top frame. -/
def State.push_frame (s : SState) : SState :=
  { operands := [], locals := [] } :: s

/-- `State::pop_frame` (state.rs): `expect("no call frame to pop")`. -/
def State.pop_frame (s : SState) : Option SState :=
  match s with
  | [] => none
  | _ :: rest => some rest

/-- `State::store_local` (state.rs). -/
def State.store_local (s : SState) (name : String) : Option SState :=
  match s with
  | [] => none
  | f :: rest => (f.store_local name).map (· :: rest)

/-- `State::load` (state.rs): `CallFrame::load` on the current frame with the
parent chain. -/
def State.load (s : SState) (name : String) : Option SState :=
  match s with
  | [] => none
  | f :: rest => (CallFrame.load name f rest).map fun fr => fr.1 :: fr.2

/-! ## Operations (runtime/types/operations.rs)

In the source each operation takes the state and pushes exactly one result
object; here each is modeled as a function from the two operand objects to
`Option Object`, where `some v` is the pushed result and `none` is a panic
(`todo!()` arms).  The executor wrapper below performs the pops and the
push. -/

namespace operations

/-- `binary_arithmetic` (operations.rs): both operands must be primitives
(`todo!()` otherwise); a `Some` primitive result is pushed, a `None` result
pushes nil. -/
def binary_arithmetic (primitive_op : Primitive → Primitive → ArithResult)
    (lhs rhs : Object) : Option Object :=
  match lhs.as_primitive, rhs.as_primitive with
  | some a, some b =>
    match primitive_op a b with
    | .ok r => some (.Primitive r)
    | .nil => some nil
    | .fatal => none
  | _, _ => none

/-- `operations::negate` (operations.rs): integer and float negate (the
integer case wraps, see `wrap64`), anything else pushes nil. -/
def negate (obj : Object) : Object :=
  match obj.as_primitive with
  | some (.Integer i) => int (wrap64 (-i))
  | some (.Float f) => float (-f)
  | _ => nil

/-- `operations::equals` (object identity per `PartialEq`, pushed as a
boolean; mismatched kinds push `false`). -/
def equals (a b : Object) : Object := boolean (Object.beq a b)

/-- `operations::not_equals`. -/
def not_equals (a b : Object) : Object := boolean (!Object.beq a b)

/-- `operations::greater_than` (operations.rs): numeric comparisons with
int-to-float promotion; every other combination is `todo!("error handling")`. -/
def greater_than (lhs rhs : Object) : Option Object :=
  match lhs.as_primitive, rhs.as_primitive with
  | some (.Integer a), some (.Integer b) => some (boolean (decide (a > b)))
  | some (.Integer a), some (.Float b) => some (boolean (decide (Float.ofInt a > b)))
  | some (.Float a), some (.Integer b) => some (boolean (decide (a > Float.ofInt b)))
  | some (.Float a), some (.Float b) => some (boolean (decide (a > b)))
  | _, _ => none

/-- `operations::less_than` (operations.rs). -/
def less_than (lhs rhs : Object) : Option Object :=
  match lhs.as_primitive, rhs.as_primitive with
  | some (.Integer a), some (.Integer b) => some (boolean (decide (a < b)))
  | some (.Integer a), some (.Float b) => some (boolean (decide (Float.ofInt a < b)))
  | some (.Float a), some (.Integer b) => some (boolean (decide (a < Float.ofInt b)))
  | some (.Float a), some (.Float b) => some (boolean (decide (a < b)))
  | _, _ => none

/-- `operations::greater_than_or_equal` (operations.rs). -/
def greater_than_or_equal (lhs rhs : Object) : Option Object :=
  match lhs.as_primitive, rhs.as_primitive with
  | some (.Integer a), some (.Integer b) => some (boolean (decide (a ≥ b)))
  | some (.Integer a), some (.Float b) => some (boolean (decide (Float.ofInt a ≥ b)))
  | some (.Float a), some (.Integer b) => some (boolean (decide (a ≥ Float.ofInt b)))
  | some (.Float a), some (.Float b) => some (boolean (decide (a ≥ b)))
  | _, _ => none

/-- `operations::less_than_or_equal` (operations.rs). -/
def less_than_or_equal (lhs rhs : Object) : Option Object :=
  match lhs.as_primitive, rhs.as_primitive with
  | some (.Integer a), some (.Integer b) => some (boolean (decide (a ≤ b)))
  | some (.Integer a), some (.Float b) => some (boolean (decide (Float.ofInt a ≤ b)))
  | some (.Float a), some (.Integer b) => some (boolean (decide (a ≤ Float.ofInt b)))
  | some (.Float a), some (.Float b) => some (boolean (decide (a ≤ b)))
  | _, _ => none

/-- `operations::and` (operations.rs): both operands must be booleans,
otherwise `todo!("error handling")`. -/
def and (lhs rhs : Object) : Option Object :=
  match lhs.as_bool, rhs.as_bool with
  | some a, some b => some (boolean (a && b))
  | _, _ => none

/-- `operations::or` (operations.rs). -/
def or (lhs rhs : Object) : Option Object :=
  match lhs.as_bool, rhs.as_bool with
  | some a, some b => some (boolean (a || b))
  | _, _ => none

end operations

/-- `execute_binary_operation` (executor.rs), reduced to its value part: the
dispatch on `BinaryOperationKind` after the two pops.  `Power` falls into
`unimplemented!` (`none`). -/
def execute_binary_operation (H : FloatHost) (kind : BinaryOperationKind)
    (left right : Object) : Option Object :=
  match kind with
  | .Add => operations.binary_arithmetic Primitive.add left right
  | .Subtract => operations.binary_arithmetic Primitive.sub left right
  | .Multiply => operations.binary_arithmetic Primitive.mul left right
  | .Divide => operations.binary_arithmetic Primitive.div left right
  | .Remainder => operations.binary_arithmetic (Primitive.rem H) left right
  | .Equal => some (operations.equals left right)
  | .NotEqual => some (operations.not_equals left right)
  | .GreaterThan => operations.greater_than left right
  | .GreaterThanOrEqual => operations.greater_than_or_equal left right
  | .LessThan => operations.less_than left right
  | .LessThanOrEqual => operations.less_than_or_equal left right
  | .And => operations.and left right
  | .Or => operations.or left right
  | .Power => none

/-- `execute_unary_operation` (executor.rs), reduced to its value part:
`Negate` dispatches to `operations::negate`, everything else (`Not`) is
`unimplemented!` (`none`). -/
def execute_unary_operation (kind : UnaryOperationKind) (operand : Object) :
    Option Object :=
  match kind with
  | .Negate => some (operations.negate operand)
  | .Not => none

/-! ## The executor (runtime/executor.rs) -/

/-- `ControlFlow` (executor.rs): the signal a finished execution layer hands
to its enclosing layer. -/
inductive ControlFlow where
  | Return (n : Nat)
  | Break
  | Continue
  | None

/-- Result of running an execution layer on a state.  `ok cf s` is a normal
source outcome (the layer finished with signal `cf` and state `s`); `fatal`
models a Rust panic (`unwrap`/`expect`/`panic!`/`todo!`/`unimplemented!`);
`timeout` means the fuel ran out (the source may genuinely diverge). -/
inductive ExecResult where
  | ok (cf : ControlFlow) (s : SState)
  | fatal
  | timeout

/-- The executor: `run_execution_layer`/`execute_operation` and the control
flow helpers of executor.rs, fused into one fuel-indexed function over the
remaining opcode list of the current layer.  Each opcode of a layer consumes
one unit of fuel, sub-layers run on the remaining fuel, and the source's
`loop { .. }` constructs re-enter their own opcode (a `For` re-enters with
its one-time initialization field cleared, which the source has executed
exactly once by then).  An empty layer finishes with the `None` signal
without consuming fuel. -/
def execSeq (H : FloatHost) : Nat → SState → List OpCode → ExecResult
  | _, s, [] => .ok .None s
  | 0, _, _ :: _ => .timeout
  | fuel + 1, s, op :: rest =>
    match op with
    -- ======================== Stack Operations ========================
    | .Store name =>
      match State.store_local s name with
      | some s1 => execSeq H fuel s1 rest
      | none => .fatal
    | .Load name =>
      match State.load s name with
      | some s1 => execSeq H fuel s1 rest
      | none => .fatal
    -- `SetKey`/`GetKey`: the popped object can never be a table (tables are
    -- unconstructible, see `Object`), so `set_key`/`get_key` always panic;
    -- a failing pop is likewise a panic.
    | .SetKey _ => .fatal
    | .GetKey _ => .fatal
    -- ======================== Push Operations ========================
    | .PushInteger x =>
      match State.push s (int x) with
      | some s1 => execSeq H fuel s1 rest
      | none => .fatal
    | .PushFloat x =>
      match State.push s (float x) with
      | some s1 => execSeq H fuel s1 rest
      | none => .fatal
    | .PushString x =>
      match State.push s (string x) with
      | some s1 => execSeq H fuel s1 rest
      | none => .fatal
    | .PushBool x =>
      match State.push s (boolean x) with
      | some s1 => execSeq H fuel s1 rest
      | none => .fatal
    | .PushFunction code =>
      match State.push s (scripted_function code) with
      | some s1 => execSeq H fuel s1 rest
      | none => .fatal
    | .PushNil =>
      match State.push s nil with
      | some s1 => execSeq H fuel s1 rest
      | none => .fatal
    -- ======================== Expressions ========================
    | .BinaryOperation kind =>
      match State.pop s with
      | some (right, s1) =>
        match State.pop s1 with
        | some (left, s2) =>
          match execute_binary_operation H kind left right with
          | some v =>
            match State.push s2 v with
            | some s3 => execSeq H fuel s3 rest
            | none => .fatal
          | none => .fatal
        | none => .fatal
      | none => .fatal
    | .UnaryOperation kind =>
      match State.pop s with
      | some (operand, s1) =>
        match execute_unary_operation kind operand with
        | some v =>
          match State.push s1 v with
          | some s2 => execSeq H fuel s2 rest
          | none => .fatal
        | none => .fatal
      | none => .fatal
    -- `execute_function_call` (executor.rs): pop the callee (panic when it is
    -- not a function), pop the `n` arguments, push a fresh frame, push the
    -- arguments onto it in popped order, run the callee, pop its `m` results,
    -- pop the frame, push the results onto the caller.  Wrapped (native)
    -- functions run host I/O (`print`, `exec`, `exit`, `input`, …) and are
    -- outside this state model; the pure ones are modeled separately with the
    -- stdlib definitions below.
    | .Call n =>
      match State.pop s with
      | some (.Function f, s1) =>
        match State.pop_n s1 n with
        | some (args, s2) =>
          match State.push_all (State.push_frame s2) args with
          | some s3 =>
            match f with
            | .Scripted code =>
              match execSeq H fuel s3 code with
              | .ok cf s4 =>
                match State.pop_n s4 (match cf with | .Return k => k | _ => 0) with
                | some (rets, s5) =>
                  match State.pop_frame s5 with
                  | some s6 =>
                    match State.push_all s6 rets with
                    | some s7 => execSeq H fuel s7 rest
                    | none => .fatal
                  | none => .fatal
                | none => .fatal
              | .fatal => .fatal
              | .timeout => .timeout
            | .Wrapped _ => .fatal
          | none => .fatal
        | none => .fatal
      | some (_, _) => .fatal
      | none => .fatal
    -- ======================== Control Flow ========================
    | .Return n => .ok (.Return n) s
    | .Break => .ok .Break s
    | .Continue => .ok .Continue s
    -- `execute_if_statement` (executor.rs): run the condition through
    -- `execute` (its signal is swallowed), pop it (`expect("no condition")`),
    -- panic unless it is a boolean, run the chosen body as a sub-layer and
    -- re-raise any signal from it.
    | .If c b e =>
      match execSeq H fuel s c with
      | .ok _ s1 =>
        match State.pop s1 with
        | some (v, s2) =>
          match v.as_bool with
          | some true =>
            match execSeq H fuel s2 b with
            | .ok .None s3 => execSeq H fuel s3 rest
            | .ok cf s3 => .ok cf s3
            | .fatal => .fatal
            | .timeout => .timeout
          | some false =>
            match e with
            | some eb =>
              match execSeq H fuel s2 eb with
              | .ok .None s3 => execSeq H fuel s3 rest
              | .ok cf s3 => .ok cf s3
              | .fatal => .fatal
              | .timeout => .timeout
            | none => execSeq H fuel s2 rest
          | none => .fatal
        | none => .fatal
      | .fatal => .fatal
      | .timeout => .timeout
    -- `execute_while_loop` (executor.rs): run the condition through
    -- `execute`, pop it (`expect("no condition")`).  A boolean `true` runs
    -- the body (`Break` ends the loop, `Continue` and `None` iterate again,
    -- `Return` is re-raised); `false` exits the loop.  A non-boolean
    -- condition value falls through the `if let Some(..)` with no `else`
    -- branch in the source: the iteration silently does nothing and the loop
    -- retries the condition (no fatal error, unlike `If` and `For`).
    | .While c b =>
      match execSeq H fuel s c with
      | .ok _ s1 =>
        match State.pop s1 with
        | some (v, s2) =>
          match v.as_bool with
          | some true =>
            match execSeq H fuel s2 b with
            | .ok .None s3 => execSeq H fuel s3 (OpCode.While c b :: rest)
            | .ok .Continue s3 => execSeq H fuel s3 (OpCode.While c b :: rest)
            | .ok .Break s3 => execSeq H fuel s3 rest
            | .ok (.Return k) s3 => .ok (.Return k) s3
            | .fatal => .fatal
            | .timeout => .timeout
          | some false => execSeq H fuel s2 rest
          | none => execSeq H fuel s2 (OpCode.While c b :: rest)
        | none => .fatal
      | .fatal => .fatal
      | .timeout => .timeout
    -- `execute_for_loop` (executor.rs): run the initialization once through
    -- `execute`, then loop: condition (absent means `true`; a present one is
    -- popped with `expect("no condition")` and `as_bool().expect(..)` — a
    -- non-boolean is fatal here); body as a sub-layer; on `None` run the
    -- increment through `execute` and iterate; on `Continue` the source's
    -- Rust `continue` skips the increment and iterates; `Break` ends the
    -- loop; `Return` is re-raised.
    | .For init c incr b =>
      match init with
      | some ini =>
        match execSeq H fuel s ini with
        | .ok _ s1 => execSeq H fuel s1 (OpCode.For none c incr b :: rest)
        | .fatal => .fatal
        | .timeout => .timeout
      | none =>
        match c with
        | some cc =>
          match execSeq H fuel s cc with
          | .ok _ s1 =>
            match State.pop s1 with
            | some (v, s2) =>
              match v.as_bool with
              | some true =>
                match execSeq H fuel s2 b with
                | .ok .None s3 =>
                  match incr with
                  | some ic =>
                    match execSeq H fuel s3 ic with
                    | .ok _ s4 => execSeq H fuel s4 (OpCode.For none c incr b :: rest)
                    | .fatal => .fatal
                    | .timeout => .timeout
                  | none => execSeq H fuel s3 (OpCode.For none c incr b :: rest)
                | .ok .Continue s3 => execSeq H fuel s3 (OpCode.For none c incr b :: rest)
                | .ok .Break s3 => execSeq H fuel s3 rest
                | .ok (.Return k) s3 => .ok (.Return k) s3
                | .fatal => .fatal
                | .timeout => .timeout
              | some false => execSeq H fuel s2 rest
              | none => .fatal
            | none => .fatal
          | .fatal => .fatal
          | .timeout => .timeout
        | none =>
          match execSeq H fuel s b with
          | .ok .None s3 =>
            match incr with
            | some ic =>
              match execSeq H fuel s3 ic with
              | .ok _ s4 => execSeq H fuel s4 (OpCode.For none c incr b :: rest)
              | .fatal => .fatal
              | .timeout => .timeout
            | none => execSeq H fuel s3 (OpCode.For none c incr b :: rest)
          | .ok .Continue s3 => execSeq H fuel s3 (OpCode.For none c incr b :: rest)
          | .ok .Break s3 => execSeq H fuel s3 rest
          | .ok (.Return k) s3 => .ok (.Return k) s3
          | .fatal => .fatal
          | .timeout => .timeout
    -- `execute_infinite_loop` (executor.rs).
    | .Loop b =>
      match execSeq H fuel s b with
      | .ok .None s1 => execSeq H fuel s1 (OpCode.Loop b :: rest)
      | .ok .Continue s1 => execSeq H fuel s1 (OpCode.Loop b :: rest)
      | .ok .Break s1 => execSeq H fuel s1 rest
      | .ok (.Return k) s1 => .ok (.Return k) s1
      | .fatal => .fatal
      | .timeout => .timeout

/-- Result of `execute` (executor.rs): the number of objects the finished
layer reports as pushed, alongside the final state. -/
inductive ExecCount where
  | ok (n : Nat) (s : SState)
  | fatal
  | timeout

/-- `execute` (executor.rs): run an execution layer and report `n` for a
`Return(n)` signal and `0` for any other outcome. -/
def execute (H : FloatHost) (fuel : Nat) (s : SState) (bytecode : Bytecode) :
    ExecCount :=
  match execSeq H fuel s bytecode with
  | .ok (.Return n) s' => .ok n s'
  | .ok _ s' => .ok 0 s'
  | .fatal => .fatal
  | .timeout => .timeout

/-! ## AST and translator (compiler/ast.rs, compiler/translator.rs) -/

/-- `Number` (compiler/ast.rs). -/
inductive Number where
  | Integer (x : Int)
  | Float (x : Float)

/-- `AstNode` (compiler/ast.rs).  The `NilLiteral` variant is constructed by
the parser (`parse_expression_primary`, parser.rs) for `nil_literal` tokens
although compiler/ast.rs omits it from the enum — one of the snapshot's
internal inconsistencies; it is included here because the parser produces
it. -/
inductive AstNode where
  | Identifier (name : String)
  | NumberLiteral (n : Number)
  | StringLiteral (s : String)
  | BooleanLiteral (b : Bool)
  | NilLiteral
  | FunctionCall (identifier : String) (args : List AstNode)
  | FunctionDef (args : List String) (body : AstNode)
  | UnaryOperation (kind : UnaryOperationKind) (operand : AstNode)
  | BinaryOperation (kind : BinaryOperationKind) (left : AstNode) (right : AstNode)
  | Assignment (identifier : String) (value : AstNode)
  | Return (value : Option AstNode)
  | Break
  | Continue
  | If (condition : AstNode) (body : AstNode) (else_body : Option AstNode)
  | For (initialization : Option AstNode) (condition : Option AstNode)
        (increment : Option AstNode) (body : AstNode)
  | While (condition : AstNode) (body : AstNode)
  | Loop (body : AstNode)
  | Block (nodes : List AstNode)

/-- `impl From<BinaryOperationKind> for OpCode` (translator.rs): every kind
except `Power` maps to its opcode; `Power` falls into `todo!()` (`none`).
The snapshot's impl targets the older flat opcode enum of runtime/opcode.rs
(`OpCode::Add`, …); those are the `BinaryOperation(kind)` opcodes of the
executor's enum (runtime/bytecode.rs, spec §4.2), which is the type used
here. -/
def opOfBinary : BinaryOperationKind → Option OpCode
  | .Power => none
  | k => some (.BinaryOperation k)

/-- `impl From<UnaryOperationKind> for OpCode` (translator.rs): `Negate` maps
to its opcode, everything else (`Not`) is `todo!()` (`none`). -/
def opOfUnary : UnaryOperationKind → Option OpCode
  | .Negate => some (.UnaryOperation .Negate)
  | .Not => none

mutual

/-- `translate_node` (compiler/translator.rs).  A `none` result models a
failing translation: the `todo!()` operator conversions, and the AST
variants for which the source `match` has no arm at all (`Break`,
`Continue`, `While`, `Loop`, and the parser-produced `NilLiteral`) — the
snapshot's `match` is non-exhaustive on its own `AstNode` enum. -/
def translate_node (ast : AstNode) : Option Bytecode :=
  match ast with
  | .Block nodes => translate_list nodes
  | .Assignment identifier value =>
      (translate_node value).map (· ++ [.Store identifier])
  | .FunctionCall identifier args =>
      (translate_list args).map (· ++ [.Load identifier, .Call args.length])
  | .FunctionDef args body =>
      (translate_node body).map fun b => [.PushFunction (args.map OpCode.Store ++ b)]
  | .Return value =>
      match translate_opt value with
      | some (some v) => some (v ++ [.Return 1])
      | some none => some [.Return 0]
      | none => none
  | .If condition body else_body =>
      match translate_node condition, translate_node body, translate_opt else_body with
      | some c, some b, some e => some [.If c b e]
      | _, _, _ => none
  | .For initialization condition increment body =>
      match translate_opt initialization, translate_opt condition,
            translate_opt increment, translate_node body with
      | some i, some c, some n, some b => some [.For i c n b]
      | _, _, _, _ => none
  | .BinaryOperation kind left right =>
      match translate_node left, translate_node right, opOfBinary kind with
      | some l, some r, some o => some (l ++ r ++ [o])
      | _, _, _ => none
  | .UnaryOperation kind operand =>
      match translate_node operand, opOfUnary kind with
      | some x, some o => some (x ++ [o])
      | _, _ => none
  | .Identifier identifier => some [.Load identifier]
  | .NumberLiteral (.Integer x) => some [.PushInteger x]
  | .NumberLiteral (.Float x) => some [.PushFloat x]
  | .StringLiteral s => some [.PushString s]
  | .BooleanLiteral b => some [.PushBool b]
  | .NilLiteral => none
  | .Break => none
  | .Continue => none
  | .While _ _ => none
  | .Loop _ => none
termination_by sizeOf ast

/-- Translation of a node sequence (the `Block` arm's `extend` loop). -/
def translate_list (nodes : List AstNode) : Option Bytecode :=
  match nodes with
  | [] => some []
  | a :: rest =>
    match translate_node a, translate_list rest with
    | some x, some y => some (x ++ y)
    | _, _ => none
termination_by sizeOf nodes

/-- Translation of an optional node (the `Option::map` in the `Return`,
`If` and `For` arms). -/
def translate_opt (o : Option AstNode) : Option (Option Bytecode) :=
  match o with
  | none => some none
  | some a => (translate_node a).map some
termination_by sizeOf o

end

/-! ## Parser fragments (compiler/parser.rs) -/

/-- Rust `u64::from_str` on the characters of a string: an optional leading
`+`, then one or more ASCII decimal digits, value at most `u64::MAX`. -/
def parseDigits (cs : List Char) : Option Nat :=
  if cs.isEmpty then none
  else if cs.all (fun c => c.isDigit) then
    some (cs.foldl (fun a c => a * 10 + (c.toNat - 48)) 0)
  else none

/-- Rust `"…".parse::<u64>()` (used by `to_int` in stdlib/mod.rs). -/
def parseU64 (s : String) : Option Nat :=
  let cs := match s.data with
    | '+' :: rest => rest
    | cs => cs
  match parseDigits cs with
  | some v => if v ≤ u64Max then some v else none
  | none => none

/-- Rust `"…".parse::<i64>()` (used by `parse_number_literal` in parser.rs):
an optional `+` or `-` sign, then one or more ASCII decimal digits, value in
the `i64` range.  In particular no `0x`/`0b` prefix is accepted. -/
def parseI64 (s : String) : Option Int :=
  match s.data with
  | '+' :: rest =>
      (parseDigits rest).bind fun v =>
        if (v : Int) ≤ i64Max then some (v : Int) else none
  | '-' :: rest =>
      (parseDigits rest).bind fun v =>
        if i64Min ≤ -(v : Int) then some (-(v : Int)) else none
  | cs =>
      (parseDigits cs).bind fun v =>
        if (v : Int) ≤ i64Max then some (v : Int) else none

/-- The number-literal grammar rules distinguished by `parse_number_literal`
(parser.rs). -/
inductive NumberRule where
  | dec_literal
  | hex_literal
  | bin_literal
  | float_literal
  | scinot_literal

/-- `parse_number_literal` (parser.rs, lines 272–287): for the three integer
rules the matched token text is fed to `pair.as_str().parse()` —
`i64::from_str` — and `unwrap`ped (`none` models the panic on a failed
parse); for the two float rules it is `f64::from_str`, the host parse. -/
def parse_number_literal (H : FloatHost) (rule : NumberRule) (s : String) :
    Option Number :=
  match rule with
  | .dec_literal | .hex_literal | .bin_literal => (parseI64 s).map Number.Integer
  | .float_literal | .scinot_literal => (H.ofStr s.data).map Number.Float

/-- Modelled from the spec: the grammar artifact (`compiler/grammar.pest`,
named by parser.rs but absent from the sources) whose `hex_literal` rule
matches hexadecimal integer literals — per §4.1's token list, written with
the conventional `0x` prefix followed by one or more hex digits. -/
def isHexLiteral (s : String) : Bool :=
  match s.data with
  | '0' :: 'x' :: ds =>
      !ds.isEmpty && ds.all (fun c =>
        c.isDigit || (decide ('a' ≤ c) && decide (c ≤ 'f'))
          || (decide ('A' ≤ c) && decide (c ≤ 'F')))
  | _ => false

/-- Modelled from the spec: the grammar's `bin_literal` rule — binary integer
literals, written with the conventional `0b` prefix followed by one or more
binary digits. -/
def isBinLiteral (s : String) : Bool :=
  match s.data with
  | '0' :: 'b' :: ds => !ds.isEmpty && ds.all (fun c => c = '0' ∨ c = '1')
  | _ => false

/-! ## Standard library fragments (stdlib/mod.rs) -/

/-- `to_int` (stdlib/mod.rs), reduced to its value part (the native function
asserts one argument, pops it and pushes the result): identity on integers,
the host's `as i64` cast on floats, `true → 1`/`false → 0`, `u64` decimal
parse on strings — fed to `utilities::int`, whose `to_i64().unwrap()` panics
above `i64::MAX` — with a failed parse giving nil, nil for nil, and a panic
(`none`) for any non-primitive argument. -/
def to_int (H : FloatHost) : Object → Option Object
  | .Primitive p =>
    match p with
    | .Integer x => some (int x)
    | .Float x => some (int (H.toI64 x))
    | .Boolean b => some (int (if b then 1 else 0))
    | .String x =>
      match parseU64 x with
      | some v => intOfU64 v
      | none => some nil
    | .Nil => some nil
  | _ => none

/-! ## Spec-side definitions

These definitions follow the specification's words, not the source; each is
compared against the corresponding source-derived definition by a theorem
below.  They are named after the spec notion they transcribe. -/

/-- Spec §4.4: the value `Load(name)` should produce — the binding of the
nearest frame in the chain (current first, then parents) that binds the
name. -/
def nearestBinding (name : String) : CallFrame → List CallFrame → Option Object
  | f, parents =>
    match lookupLocal f.locals name with
    | some x => some x
    | none =>
      match parents with
      | p :: ps => nearestBinding name p ps
      | [] => none

mutual

/-- Every `Return(n)` opcode appearing in the layer tree of an opcode has
`n ≤ 1`.  This does not descend into `PushFunction` bodies: a pushed
function's signals are consumed by its own `Call`.  The translator only
emits `Return 0` and `Return 1` (`translate_node`, `Return` arm), so all
translator output satisfies this. -/
def OpCode.retOk : OpCode → Bool
  | .Return n => decide (n ≤ 1)
  | .If _ body else_body => OpCode.retOkList body && OpCode.retOkOpt else_body
  | .For _ _ _ body => OpCode.retOkList body
  | .While _ body => OpCode.retOkList body
  | .Loop body => OpCode.retOkList body
  | _ => true

/-- `OpCode.retOk` over a bytecode sequence. -/
def OpCode.retOkList : List OpCode → Bool
  | [] => true
  | o :: os => OpCode.retOk o && OpCode.retOkList os

/-- `OpCode.retOk` over an optional bytecode sequence. -/
def OpCode.retOkOpt : Option (List OpCode) → Bool
  | none => true
  | some l => OpCode.retOkList l

end

/-- The five arithmetic operator kinds of spec §4.3. -/
def BinaryOperationKind.isArithmetic : BinaryOperationKind → Bool
  | .Add | .Subtract | .Multiply | .Divide | .Remainder => true
  | _ => false

/-- Spec §4.3's "any other combination": primitive operand pairs outside the
arithmetic table — any pair involving nil or a boolean, a string paired with
a non-string, and string/string under any operator but `+`. -/
def arithOther (kind : BinaryOperationKind) : Primitive → Primitive → Bool
  | .Integer _, .Integer _ => false
  | .Integer _, .Float _ => false
  | .Float _, .Integer _ => false
  | .Float _, .Float _ => false
  | .String _, .String _ => decide (kind ≠ BinaryOperationKind.Add)
  | _, _ => true

/-- Fold of the `Store` prologue of a scripted function: bind each parameter
name to the corresponding argument, first parameter first. -/
def bindLocals : List String → List Object → Locals → Locals
  | p :: ps, a :: rest, l => bindLocals ps rest (insertLocal l p a)
  | _, _, l => l

/-! # Theorems -/

/-! ## Helper lemmas on scopes and the state -/

theorem lookupLocal_insert_self (l : Locals) (name : String) (v : Object) :
    lookupLocal (insertLocal l name v) name = some v := by
  simp [lookupLocal, insertLocal]

theorem find?_filterKey_ne (q name : String) (h : ¬ name = q) :
    ∀ l : Locals,
      List.find? (fun p => p.1 == q) (l.filter (fun p => !(p.1 == name)))
        = List.find? (fun p => p.1 == q) l := by
  intro l
  induction l with
  | nil => rfl
  | cons p rest ih =>
    rcases p with ⟨k, w⟩
    by_cases hk : k = name
    · subst hk
      have h2 : (k == q) = false := by simp [fun hh : k = q => h hh]
      simp [List.filter_cons, List.find?_cons, h2, ih]
    · have h1 : (k == name) = false := by simp [hk]
      by_cases hq : k = q
      · subst hq
        simp [List.filter_cons, List.find?_cons, h1]
      · have h2 : (k == q) = false := by simp [hq]
        simp [List.filter_cons, List.find?_cons, h1, h2, ih]

theorem lookupLocal_insert_ne (l : Locals) (name q : String) (v : Object)
    (h : ¬ name = q) : lookupLocal (insertLocal l name v) q = lookupLocal l q := by
  have hb : (name == q) = false := by simp [h]
  simp [lookupLocal, insertLocal, List.find?_cons, hb, find?_filterKey_ne q name h l]

theorem bindLocals_lookup_notmem :
    ∀ (params : List String) (args : List Object) (l : Locals) (q : String),
      q ∉ params → lookupLocal (bindLocals params args l) q = lookupLocal l q := by
  intro params
  induction params with
  | nil => intro args l q _; cases args <;> rfl
  | cons p ps ih =>
    intro args l q hq
    cases args with
    | nil => rfl
    | cons a rest =>
      have hpq : q ≠ p := fun h => hq (h ▸ List.mem_cons_self p ps)
      have hq' : q ∉ ps := fun h => hq (List.mem_cons_of_mem p h)
      simp [bindLocals, ih rest _ q hq', lookupLocal_insert_ne _ _ _ _ (Ne.symm hpq)]

theorem bindLocals_lookup :
    ∀ (params : List String) (args : List Object) (l : Locals) (p : String) (a : Object),
      params.Nodup → (p, a) ∈ params.zip args →
      lookupLocal (bindLocals params args l) p = some a := by
  intro params
  induction params with
  | nil => intro args l p a _ hmem; simp [List.zip] at hmem
  | cons p0 ps ih =>
    intro args l p a hnd hmem
    cases args with
    | nil => simp [List.zip] at hmem
    | cons a0 rest =>
      rcases List.nodup_cons.mp hnd with ⟨hp0, hnd'⟩
      rw [List.zip_cons_cons] at hmem
      rcases List.mem_cons.mp hmem with h | h
      · have h1 : p = p0 := congrArg Prod.fst h
        have h2 : a = a0 := congrArg Prod.snd h
        subst h1
        subst h2
        simp [bindLocals, bindLocals_lookup_notmem ps rest _ p hp0,
          lookupLocal_insert_self]
      · simpa [bindLocals] using ih rest (insertLocal l p0 a0) p a hnd' h

/-- Characterization of `CallFrame::load`: it never panics, pushes exactly
the spec's nearest-binding value (nil when unbound) onto the frame it was
invoked on, and hands back every ancestor frame exactly as it was (the
transient push onto the parent is immediately popped back off). -/
theorem CallFrame.load_eq (name : String) :
    ∀ (parents : List CallFrame) (f : CallFrame),
      CallFrame.load name f parents
        = some (f.push ((nearestBinding name f parents).getD nil), parents) := by
  intro parents
  induction parents with
  | nil =>
    intro f
    cases h : lookupLocal f.locals name <;>
      simp [CallFrame.load, nearestBinding, h]
  | cons p ps ih =>
    intro f
    cases h : lookupLocal f.locals name with
    | some x => simp [CallFrame.load, nearestBinding, h]
    | none =>
      simp [CallFrame.load, nearestBinding, h, ih p, CallFrame.push, CallFrame.pop]

/-! ## State-operation lemmas -/

theorem State.push_all_cons :
    ∀ (vs : List Object) (f : CallFrame) (rest : List CallFrame),
      State.push_all (f :: rest) vs
        = some ({ operands := vs.reverse ++ f.operands, locals := f.locals } :: rest) := by
  intro vs
  induction vs with
  | nil => intro f rest; simp [State.push_all]
  | cons v vs' ih =>
    intro f rest
    simp [State.push_all, State.push, CallFrame.push, ih]

theorem State.pop_n_take :
    ∀ (n : Nat) (f : CallFrame) (rest : List CallFrame),
      n ≤ f.operands.length →
      State.pop_n (f :: rest) n
        = some (f.operands.take n,
            { operands := f.operands.drop n, locals := f.locals } :: rest) := by
  intro n
  induction n with
  | zero => intro f rest _; simp [State.pop_n]
  | succ k ih =>
    intro f rest hlen
    match hops : f.operands with
    | [] => rw [hops] at hlen; simp at hlen
    | v :: ops =>
      have : k ≤ ops.length := by rw [hops] at hlen; simpa using hlen
      have step := ih { operands := ops, locals := f.locals } rest this
      simp [State.pop_n, State.pop, CallFrame.pop, hops, step]

theorem State.pop_n_tail :
    ∀ (n : Nat) (f : CallFrame) (rest : List CallFrame) (vs : List Object) (s' : SState),
      State.pop_n (f :: rest) n = some (vs, s') →
      ∃ f', s' = f' :: rest := by
  intro n
  induction n with
  | zero =>
    intro f rest vs s' h
    simp [State.pop_n] at h
    exact ⟨f, h.2.symm⟩
  | succ k ih =>
    intro f rest vs s' h
    match hops : f.operands with
    | [] => rw [State.pop_n, State.pop, CallFrame.pop, hops] at h; simp at h
    | v :: ops =>
      rw [State.pop_n, State.pop, CallFrame.pop, hops] at h
      simp at h
      rcases hrec : State.pop_n ({ operands := ops, locals := f.locals } :: rest) k with _ | ⟨vs', s''⟩
      · rw [hrec] at h; simp at h
      · rw [hrec] at h
        simp at h
        obtain ⟨f', hf'⟩ := ih _ rest vs' s'' hrec
        exact ⟨f', by rw [← h.2, hf']⟩

/-! ## Claim C5 -/

/-- C5: executing `Load(name)` pushes onto the current frame's operand stack
the value bound to `name` in the nearest frame of the chain that binds it
(current frame first, then parents up to the global frame), and pushes nil
when no frame in the chain binds it — `nearestBinding` transcribes the
spec's lookup rule, and the executed load produces exactly its result. -/
theorem C5_load_lexical_lookup (H : FloatHost) (fuel : Nat) (name : String)
    (f : CallFrame) (parents : List CallFrame) :
    execSeq H (fuel + 1) (f :: parents) [OpCode.Load name]
      = .ok .None (f.push ((nearestBinding name f parents).getD nil) :: parents) := by
  simp [execSeq, State.load, CallFrame.load_eq]

/-! ## Claim C10 -/

/-- C10: a `Load` that resolves through ancestor frames leaves the operand
stack (and locals) of every ancestor frame exactly as it was — the recursive
lookup's push onto an ancestor is immediately popped back off — and only the
frame the load was invoked on gains exactly one value. -/
theorem C10_load_preserves_ancestors (name : String) (f : CallFrame)
    (parents : List CallFrame) :
    ∃ v, CallFrame.load name f parents
      = some ({ operands := v :: f.operands, locals := f.locals }, parents) := by
  exact ⟨(nearestBinding name f parents).getD nil, by
    simp [CallFrame.load_eq, CallFrame.push]⟩

/-! ## Claim C8 -/

/-- C8 (demonstrating the code bug): the translator of the snapshot is not
total on parser-producible ASTs.  Its `match` has no arm for `Break`,
`Continue`, `While`, `Loop` or the parser's `NilLiteral`, and the unary
`not` operator's opcode conversion is `todo!()`, so none of these translate
— while the executor does implement the corresponding opcodes and the spec's
§4.2 lowering requires e.g. `Break → OpCode::Break`. -/
theorem C8_translator_missing_arms :
    translate_node .Break = none ∧
    translate_node .Continue = none ∧
    translate_node .NilLiteral = none ∧
    (∀ c b, translate_node (.While c b) = none) ∧
    (∀ b, translate_node (.Loop b) = none) ∧
    (∀ x, translate_node (.UnaryOperation .Not x) = none) := by
  refine ⟨by simp [translate_node], by simp [translate_node], by simp [translate_node],
    fun c b => by simp [translate_node], fun b => by simp [translate_node],
    fun x => ?_⟩
  cases h : translate_node x <;> simp [translate_node, opOfUnary, h]

/-! ## Claim C7 -/

/-- C7 (demonstrating the code bug): a hexadecimal or binary integer literal
accepted by the grammar reaches `parse_number_literal`, which feeds the
matched token text — prefix included — to `i64::from_str` and `unwrap`s the
result; `i64::from_str` rejects the `0x`/`0b` prefix, so compilation panics
instead of succeeding.  `"0xA"` and `"0b101"` are well-formed literal tokens
(per the spec-modelled token shapes) on which the parse is `none` (panic). -/
theorem C7_hex_bin_literal_parse_panics :
    isHexLiteral "0xA" = true ∧
    isBinLiteral "0b101" = true ∧
    (∀ H : FloatHost, parse_number_literal H .hex_literal "0xA" = none) ∧
    (∀ H : FloatHost, parse_number_literal H .bin_literal "0b101" = none) :=
  ⟨rfl, rfl, fun _ => rfl, fun _ => rfl⟩

/-! ## Claim C9 -/

/-- C9 (counterexample): `int` does raise a fatal error on some strings.
`"9223372036854775808"` (2^63) parses as a `u64`, but `utilities::int`'s
`to_i64().unwrap()` panics because the value exceeds `i64::MAX`. -/
theorem C9_counterexample :
    to_int trivialFloatHost (string "9223372036854775808") = none := rfl

/-- C9 (amended): `int(v)` is the identity on integers, the host's
truncating `as i64` cast on floats, `1`/`0` on booleans, nil on nil; a
string is parsed as an unsigned decimal (`u64`) — an unparseable string
yields nil, a parsed value within `i64` range yields that integer, and a
parsed value above `i64::MAX` raises a fatal error (the `to_i64().unwrap()`
panic), so `int` is not fatal-error-free on strings. -/
theorem C9_to_int_amended (H : FloatHost) :
    (∀ x : Int, to_int H (.Primitive (.Integer x)) = some (int x)) ∧
    (∀ x : Float, to_int H (.Primitive (.Float x)) = some (int (H.toI64 x))) ∧
    (to_int H (.Primitive (.Boolean true)) = some (int 1)) ∧
    (to_int H (.Primitive (.Boolean false)) = some (int 0)) ∧
    (to_int H (.Primitive .Nil) = some nil) ∧
    (∀ s v, parseU64 s = some v → (v : Int) ≤ i64Max →
      to_int H (.Primitive (.String s)) = some (int v)) ∧
    (∀ s v, parseU64 s = some v → i64Max < (v : Int) →
      to_int H (.Primitive (.String s)) = none) ∧
    (∀ s, parseU64 s = none → to_int H (.Primitive (.String s)) = some nil) := by
  refine ⟨fun x => rfl, fun x => rfl, rfl, rfl, rfl, ?_, ?_, ?_⟩
  · intro s v hp hle
    simp [to_int, hp, intOfU64, hle]
  · intro s v hp hlt
    simp [to_int, hp, intOfU64, not_le.mpr hlt]
  · intro s hp
    simp [to_int, hp]

/-- C9 witness: the amended theorem applied at the concrete strings `"42"`
(in range) and `"x"` (unparseable). -/
theorem C9_witness :
    (parseU64 "42" = some 42 ∧
      to_int trivialFloatHost (.Primitive (.String "42")) = some (int 42)) ∧
    (parseU64 "x" = none ∧
      to_int trivialFloatHost (.Primitive (.String "x")) = some nil) :=
  ⟨⟨rfl, (C9_to_int_amended trivialFloatHost).2.2.2.2.2.1 "42" 42 rfl (by decide)⟩,
    ⟨rfl, (C9_to_int_amended trivialFloatHost).2.2.2.2.2.2.2 "x" rfl⟩⟩

/-! ## Claim C6 -/

/-- C6 (counterexample): the claim says int ⊕ int yields an int for every
⊕ in {+, -, *, /, %}, but integer division by zero panics — at the concrete
input `1 / 0` the primitive operation is a fatal error, not an integer. -/
theorem C6_counterexample :
    Primitive.div (.Integer 1) (.Integer 0) = .fatal ∧
    execute_binary_operation trivialFloatHost .Divide
      (.Primitive (.Integer 1)) (.Primitive (.Integer 0)) = none := by
  constructor
  · simp [Primitive.div]
  · simp [execute_binary_operation, operations.binary_arithmetic,
      Object.as_primitive, Primitive.div]

/-- C6 (amended): for ⊕ in {+, -, *, /, %} on primitive operands —
int⊕int yields an int except that `/` and `%` raise a fatal error when the
divisor is 0 or when the dividend is `i64::MIN` with divisor `-1`; int⊕float
and float⊕int equal the corresponding float⊕float computation with the int
promoted, and float⊕float yields a float; string + string concatenates; every
other combination of primitive operands yields nil; and the executed
operation consumes its two operands off the operand stack and pushes exactly
one result. -/
theorem C6_arithmetic_amended (H : FloatHost) :
    (∀ (k : BinaryOperationKind) (a b : Int), k.isArithmetic = true →
      ¬((k = .Divide ∨ k = .Remainder) ∧ (b = 0 ∨ (a = i64Min ∧ b = -1))) →
      ∃ c, execute_binary_operation H k (.Primitive (.Integer a)) (.Primitive (.Integer b))
            = some (.Primitive (.Integer c))) ∧
    (∀ (k : BinaryOperationKind) (a b : Int),
      (k = .Divide ∨ k = .Remainder) → (b = 0 ∨ (a = i64Min ∧ b = -1)) →
      execute_binary_operation H k (.Primitive (.Integer a)) (.Primitive (.Integer b))
        = none) ∧
    (∀ (k : BinaryOperationKind) (a : Int) (x : Float), k.isArithmetic = true →
      execute_binary_operation H k (.Primitive (.Integer a)) (.Primitive (.Float x))
        = execute_binary_operation H k (.Primitive (.Float (Float.ofInt a)))
            (.Primitive (.Float x)) ∧
      execute_binary_operation H k (.Primitive (.Float x)) (.Primitive (.Integer a))
        = execute_binary_operation H k (.Primitive (.Float x))
            (.Primitive (.Float (Float.ofInt a)))) ∧
    (∀ (k : BinaryOperationKind) (x y : Float), k.isArithmetic = true →
      ∃ z, execute_binary_operation H k (.Primitive (.Float x)) (.Primitive (.Float y))
            = some (.Primitive (.Float z))) ∧
    (∀ a b : String,
      execute_binary_operation H .Add (.Primitive (.String a)) (.Primitive (.String b))
        = some (.Primitive (.String (a ++ b)))) ∧
    (∀ (k : BinaryOperationKind) (p q : Primitive), k.isArithmetic = true →
      arithOther k p q = true →
      execute_binary_operation H k (.Primitive p) (.Primitive q) = some nil) ∧
    (∀ (fuel : Nat) (k : BinaryOperationKind) (l r v : Object) (t : List Object)
        (L : Locals) (frames : List CallFrame),
      execute_binary_operation H k l r = some v →
      execSeq H (fuel + 1) ({ operands := r :: l :: t, locals := L } :: frames)
          [.BinaryOperation k]
        = .ok .None ({ operands := v :: t, locals := L } :: frames)) := by
  refine ⟨?_, ?_, ?_, ?_, ?_, ?_, ?_⟩
  · intro k a b hk hnp
    cases k <;> simp [BinaryOperationKind.isArithmetic] at hk
    case Add => exact ⟨wrap64 (a + b), rfl⟩
    case Subtract => exact ⟨wrap64 (a - b), rfl⟩
    case Multiply => exact ⟨wrap64 (a * b), rfl⟩
    case Divide =>
      have hc : ¬(b = 0 ∨ (a = i64Min ∧ b = -1)) := fun hc => hnp ⟨Or.inl rfl, hc⟩
      exact ⟨a.tdiv b, by
        simp [execute_binary_operation, operations.binary_arithmetic,
          Object.as_primitive, Primitive.div, hc]⟩
    case Remainder =>
      have hc : ¬(b = 0 ∨ (a = i64Min ∧ b = -1)) := fun hc => hnp ⟨Or.inr rfl, hc⟩
      exact ⟨a.tmod b, by
        simp [execute_binary_operation, operations.binary_arithmetic,
          Object.as_primitive, Primitive.rem, hc]⟩
  · intro k a b hk hc
    rcases hk with rfl | rfl <;>
      simp [execute_binary_operation, operations.binary_arithmetic, Object.as_primitive,
        Primitive.div, Primitive.rem, hc]
  · intro k a x hk
    cases k <;> simp [BinaryOperationKind.isArithmetic] at hk
    all_goals exact ⟨rfl, rfl⟩
  · intro k x y hk
    cases k <;> simp [BinaryOperationKind.isArithmetic] at hk
    case Add => exact ⟨x + y, rfl⟩
    case Subtract => exact ⟨x - y, rfl⟩
    case Multiply => exact ⟨x * y, rfl⟩
    case Divide => exact ⟨x / y, rfl⟩
    case Remainder => exact ⟨H.rem x y, rfl⟩
  · intro a b
    rfl
  · intro k p q hk ho
    cases k <;> simp [BinaryOperationKind.isArithmetic] at hk <;>
      cases p <;> cases q <;> simp [arithOther] at ho <;> rfl
  · intro fuel k l r v t L frames h
    simp [execSeq, State.pop, CallFrame.pop, State.push, CallFrame.push, h]

/-- C6 witness: the amended theorem applied at `2 + 3` (ints), with the
division-panic exclusion discharged at that input, and at the stack effect of
executing it. -/
theorem C6_witness :
    (¬((BinaryOperationKind.Add = .Divide ∨ BinaryOperationKind.Add = .Remainder) ∧
        ((3 : Int) = 0 ∨ ((2 : Int) = i64Min ∧ (3 : Int) = -1)))) ∧
    (∃ c, execute_binary_operation trivialFloatHost .Add
        (.Primitive (.Integer 2)) (.Primitive (.Integer 3))
          = some (.Primitive (.Integer c))) :=
  ⟨by decide,
    (C6_arithmetic_amended trivialFloatHost).1 .Add 2 3 (by decide) (by decide)⟩

/-! ## Claim C3 -/

/-- C3 (counterexample): the compiled form of the source `5;` — the
translator maps the expression-statement block to `[PushInteger 5]` — leaves
one value on the operand stack, but `execute` reports 0, because the count
`execute` returns is the `n` of a top-level `Return(n)` signal (else 0), not
the number of values the execution left on the stack. -/
theorem C3_counterexample :
    translate_node (.Block [.NumberLiteral (.Integer 5)]) = some [.PushInteger 5] ∧
    execute trivialFloatHost 5 [{ operands := [], locals := [] }] [.PushInteger 5]
      = .ok 0 [{ operands := [int 5], locals := [] }] ∧
    ([int 5] : List Object).length = 1 := by
  refine ⟨by simp [translate_node, translate_list], rfl, rfl⟩

/-- C3 (amended): `execute` (and hence `execute_source` for successfully
compiled sources) returns the `n` of a top-level `Return(n)` signal and 0
for any other outcome of the layer; that count need not equal the number of
values the execution left on the global operand stack. -/
theorem C3_execute_amended (H : FloatHost) (fuel : Nat) (s : SState)
    (code : Bytecode) :
    (∀ n s', execSeq H fuel s code = .ok (.Return n) s' →
      execute H fuel s code = .ok n s') ∧
    (∀ cf s', execSeq H fuel s code = .ok cf s' → (∀ k, cf ≠ .Return k) →
      execute H fuel s code = .ok 0 s') := by
  constructor
  · intro n s' h
    simp [execute, h]
  · intro cf s' h hk
    cases cf with
    | Return k => exact absurd rfl (hk k)
    | _ => simp [execute, h]

/-- C3 witness: the amended theorem applied to the concrete bytecode
`[Return 2]` (top-level `Return(2)` gives count 2) and `[PushInteger 5]`
(no `Return` gives count 0). -/
theorem C3_witness :
    execute trivialFloatHost 5 [{ operands := [], locals := [] }] [.Return 2]
      = .ok 2 [{ operands := [], locals := [] }] ∧
    execute trivialFloatHost 5 [{ operands := [], locals := [] }] [.PushInteger 5]
      = .ok 0 [{ operands := [int 5], locals := [] }] :=
  ⟨(C3_execute_amended trivialFloatHost 5 _ _).1 2 _ rfl,
    (C3_execute_amended trivialFloatHost 5 _ _).2 .None _ rfl (fun k h => by cases h)⟩

/-! ## Claim C4 -/

/-- C4 (demonstrating the code bug): a `While` whose condition leaves a
non-boolean value is *not* a runtime fatal error.  The source's
`if let Some(condition_result) = condition_result.as_bool()` has no `else`
branch, so the iteration silently does neither — the loop re-evaluates the
condition forever.  At the concrete opcode
`While { condition: [PushInteger 1], body: [] }` execution exhausts any
amount of fuel (it diverges), and in particular never reports the fatal
error the claim requires. -/
theorem C4_while_nonboolean_condition_diverges :
    ∀ fuel : Nat,
      execSeq trivialFloatHost fuel [{ operands := [], locals := [] }]
        [.While [.PushInteger 1] []] = .timeout := by
  intro fuel
  induction fuel with
  | zero => rfl
  | succ f ih =>
    cases f with
    | zero => rfl
    | succ g =>
      simpa [execSeq, State.push, CallFrame.push, State.pop, CallFrame.pop,
        Object.as_bool, int] using ih

/-! ## Claim C2 -/

/-- C2 (demonstrating the code bug): on a `Continue` signal from a `For`
body, the source's Rust `continue` jumps straight back to the condition and
skips the increment, contrary to the claim (and to the opcode's own
documentation, "executed after each iteration").  Concretely: a `For` loop
whose body sets `b := false` and continues, with increment `x := 9`, ends
with `b` updated but `x` never bound — the increment never ran.  (The other
signal rules of the claim — immediate layer exit, `If` re-raising, `Break`
consumption, `Return` re-raising, `While`'s `Continue` — are exercised
elsewhere in this development.) -/
theorem C2_for_continue_skips_increment :
    execSeq trivialFloatHost 20
        [{ operands := [], locals := [("b", boolean true)] }]
        [.For none (some [.Load "b"]) (some [.PushInteger 9, .Store "x"])
          [.PushBool false, .Store "b", .Continue]]
      = .ok .None [{ operands := [], locals := [("b", boolean false)] }] ∧
    lookupLocal [("b", boolean false)] "x" = none ∧
    lookupLocal [("b", boolean false)] "b" = some (boolean false) :=
  ⟨rfl, rfl, rfl⟩

/-! ## Frame-tail preservation

No opcode ever disturbs the frames below the current one: stores and pushes
touch only the head frame, a resolving `Load` restores every ancestor
(`CallFrame.load_eq`), and a call pushes a frame, runs, and pops it again.
These lemmas make that precise; the main induction `execSeq_tail` is the
"caller's local scope and frame count unchanged" guarantee of the call
protocol. -/

theorem State.push_tail {top : CallFrame} {rest : List CallFrame} {v : Object}
    {s1 : SState} (h : State.push (top :: rest) v = some s1) :
    ∃ t, s1 = t :: rest := by
  simp [State.push] at h
  exact ⟨top.push v, h.symm⟩

theorem State.pop_tail {top : CallFrame} {rest : List CallFrame} {v : Object}
    {s1 : SState} (h : State.pop (top :: rest) = some (v, s1)) :
    ∃ t, s1 = t :: rest := by
  rcases hp : top.pop with _ | ⟨w, t⟩ <;> rw [State.pop, hp] at h
  · simp at h
  · simp at h
    exact ⟨t, h.2.symm⟩

theorem State.store_local_tail {top : CallFrame} {rest : List CallFrame}
    {name : String} {s1 : SState}
    (h : State.store_local (top :: rest) name = some s1) :
    ∃ t, s1 = t :: rest := by
  rcases hp : top.store_local name with _ | t <;> rw [State.store_local, hp] at h
  · simp at h
  · simp at h
    exact ⟨t, h.symm⟩

theorem State.load_tail {top : CallFrame} {rest : List CallFrame}
    {name : String} {s1 : SState} (h : State.load (top :: rest) name = some s1) :
    ∃ t, s1 = t :: rest := by
  rw [State.load, CallFrame.load_eq] at h
  simp at h
  exact ⟨_, h.symm⟩

theorem State.push_all_tail {vs : List Object} {top : CallFrame}
    {rest : List CallFrame} {s1 : SState}
    (h : State.push_all (top :: rest) vs = some s1) :
    ∃ t, s1 = t :: rest := by
  rw [State.push_all_cons] at h
  simp at h
  exact ⟨_, h.symm⟩

theorem callProtocolTail {H : FloatHost} {f : Nat} {k : List OpCode} (m : Nat)
    {t4 t2 : CallFrame} {rest : List CallFrame} {cf : ControlFlow} {s' : SState}
    (tailIH : ∀ (code : List OpCode) (top : CallFrame) (rest' : List CallFrame)
        (cf' : ControlFlow) (s'' : SState),
        execSeq H f (top :: rest') code = .ok cf' s'' → ∃ t, s'' = t :: rest')
    (h : (match State.pop_n (t4 :: t2 :: rest) m with
          | some (rets, s5) =>
            match State.pop_frame s5 with
            | some s6 =>
              match State.push_all s6 rets with
              | some s7 => execSeq H f s7 k
              | none => ExecResult.fatal
            | none => ExecResult.fatal
          | none => ExecResult.fatal) = .ok cf s') :
    ∃ top', s' = top' :: rest := by
  rcases hn2 : State.pop_n (t4 :: t2 :: rest) m with _ | ⟨rets, s5⟩
  · simp [hn2] at h
  · obtain ⟨t5, rfl⟩ := State.pop_n_tail m t4 (t2 :: rest) rets s5 hn2
    simp only [hn2, State.pop_frame] at h
    rcases ha2 : State.push_all (t2 :: rest) rets with _ | s7
    · simp [ha2] at h
    · obtain ⟨t6, rfl⟩ := State.push_all_tail ha2
      simp only [ha2] at h
      exact tailIH k t6 rest cf s' h

theorem execSeq_tail (H : FloatHost) :
    ∀ (fuel : Nat) (code : List OpCode) (top : CallFrame) (rest : List CallFrame)
      (cf : ControlFlow) (s' : SState),
      execSeq H fuel (top :: rest) code = .ok cf s' → ∃ top', s' = top' :: rest := by
  intro fuel
  induction fuel with
  | zero =>
    intro code top rest cf s' h
    cases code with
    | nil =>
      simp only [execSeq] at h
      injection h with h1 h2
      exact ⟨top, h2.symm⟩
    | cons op k => simp only [execSeq] at h; cases h
  | succ f ih =>
    intro code top rest cf s' h
    cases code with
    | nil =>
      simp only [execSeq] at h
      injection h with h1 h2
      exact ⟨top, h2.symm⟩
    | cons op k =>
      cases op with
      | Store name =>
        simp only [execSeq] at h
        rcases hs : State.store_local (top :: rest) name with _ | s1
        · simp [hs] at h
        · obtain ⟨t1, rfl⟩ := State.store_local_tail hs
          simp only [hs] at h
          exact ih k t1 rest cf s' h
      | Load name =>
        simp only [execSeq] at h
        rcases hs : State.load (top :: rest) name with _ | s1
        · simp [hs] at h
        · obtain ⟨t1, rfl⟩ := State.load_tail hs
          simp only [hs] at h
          exact ih k t1 rest cf s' h
      | SetKey key => simp only [execSeq] at h; cases h
      | GetKey key => simp only [execSeq] at h; cases h
      | PushInteger x =>
        simp only [execSeq, State.push] at h
        exact ih k _ rest cf s' h
      | PushFloat x =>
        simp only [execSeq, State.push] at h
        exact ih k _ rest cf s' h
      | PushString x =>
        simp only [execSeq, State.push] at h
        exact ih k _ rest cf s' h
      | PushBool x =>
        simp only [execSeq, State.push] at h
        exact ih k _ rest cf s' h
      | PushFunction code' =>
        simp only [execSeq, State.push] at h
        exact ih k _ rest cf s' h
      | PushNil =>
        simp only [execSeq, State.push] at h
        exact ih k _ rest cf s' h
      | BinaryOperation kind =>
        simp only [execSeq] at h
        rcases hp : State.pop (top :: rest) with _ | ⟨r, s1⟩
        · simp [hp] at h
        · obtain ⟨t1, rfl⟩ := State.pop_tail hp
          simp only [hp] at h
          rcases hp2 : State.pop (t1 :: rest) with _ | ⟨l, s2⟩
          · simp [hp2] at h
          · obtain ⟨t2, rfl⟩ := State.pop_tail hp2
            simp only [hp2] at h
            rcases hb : execute_binary_operation H kind l r with _ | v
            · simp [hb] at h
            · simp only [hb] at h
              rcases hpu : State.push (t2 :: rest) v with _ | s3
              · simp [hpu] at h
              · obtain ⟨t3, rfl⟩ := State.push_tail hpu
                simp only [hpu] at h
                exact ih k t3 rest cf s' h
      | UnaryOperation kind =>
        simp only [execSeq] at h
        rcases hp : State.pop (top :: rest) with _ | ⟨x, s1⟩
        · simp [hp] at h
        · obtain ⟨t1, rfl⟩ := State.pop_tail hp
          simp only [hp] at h
          rcases hu : execute_unary_operation kind x with _ | v
          · simp [hu] at h
          · simp only [hu] at h
            rcases hpu : State.push (t1 :: rest) v with _ | s2
            · simp [hpu] at h
            · obtain ⟨t2, rfl⟩ := State.push_tail hpu
              simp only [hpu] at h
              exact ih k t2 rest cf s' h
      | Call n =>
        simp only [execSeq] at h
        rcases hp : State.pop (top :: rest) with _ | ⟨fo, s1⟩
        · simp [hp] at h
        · obtain ⟨t1, rfl⟩ := State.pop_tail hp
          rcases fo with p | fn
          · simp [hp] at h
          · simp only [hp] at h
            rcases hn : State.pop_n (t1 :: rest) n with _ | ⟨args, s2⟩
            · simp [hn] at h
            · obtain ⟨t2, rfl⟩ := State.pop_n_tail n t1 rest args s2 hn
              simp only [hn, State.push_frame] at h
              rcases ha : State.push_all ({ operands := [], locals := [] } :: t2 :: rest) args
                with _ | s3
              · simp [ha] at h
              · obtain ⟨t3, rfl⟩ := State.push_all_tail ha
                rcases fn with code' | id
                · simp only [ha] at h
                  rcases hrun : execSeq H f (t3 :: t2 :: rest) code' with ⟨cf2, s4⟩ | _ | _
                  · obtain ⟨t4, rfl⟩ := ih code' t3 (t2 :: rest) cf2 s4 hrun
                    simp only [hrun] at h
                    exact callProtocolTail _ ih h
                  · simp [hrun] at h
                  · simp [hrun] at h
                · simp [ha] at h
      | Return n =>
        simp only [execSeq] at h
        injection h with h1 h2
        exact ⟨top, h2.symm⟩
      | Break =>
        simp only [execSeq] at h
        injection h with h1 h2
        exact ⟨top, h2.symm⟩
      | Continue =>
        simp only [execSeq] at h
        injection h with h1 h2
        exact ⟨top, h2.symm⟩
      | If c b e =>
        simp only [execSeq] at h
        rcases hc : execSeq H f (top :: rest) c with ⟨cf1, s1⟩ | _ | _
        · obtain ⟨t1, rfl⟩ := ih c top rest cf1 s1 hc
          simp only [hc] at h
          rcases hpp : State.pop (t1 :: rest) with _ | ⟨v, s2⟩
          · simp [hpp] at h
          · obtain ⟨t2, rfl⟩ := State.pop_tail hpp
            rcases hb : v.as_bool with _ | bv
            · simp [hpp, hb] at h
            · cases bv
              · simp only [hpp, hb] at h
                rcases e with _ | eb
                · exact ih k t2 rest cf s' h
                · rcases he : execSeq H f (t2 :: rest) eb with ⟨cf2, s3⟩ | _ | _
                  · obtain ⟨t3, rfl⟩ := ih eb t2 rest cf2 s3 he
                    cases cf2 with
                    | None =>
                      simp only [he] at h
                      exact ih k t3 rest cf s' h
                    | Return nn =>
                      simp only [he] at h
                      injection h with h1 h2
                      exact ⟨t3, h2.symm⟩
                    | Break =>
                      simp only [he] at h
                      injection h with h1 h2
                      exact ⟨t3, h2.symm⟩
                    | Continue =>
                      simp only [he] at h
                      injection h with h1 h2
                      exact ⟨t3, h2.symm⟩
                  · simp [he] at h
                  · simp [he] at h
              · simp only [hpp, hb] at h
                rcases hbb : execSeq H f (t2 :: rest) b with ⟨cf2, s3⟩ | _ | _
                · obtain ⟨t3, rfl⟩ := ih b t2 rest cf2 s3 hbb
                  cases cf2 with
                  | None =>
                    simp only [hbb] at h
                    exact ih k t3 rest cf s' h
                  | Return nn =>
                    simp only [hbb] at h
                    injection h with h1 h2
                    exact ⟨t3, h2.symm⟩
                  | Break =>
                    simp only [hbb] at h
                    injection h with h1 h2
                    exact ⟨t3, h2.symm⟩
                  | Continue =>
                    simp only [hbb] at h
                    injection h with h1 h2
                    exact ⟨t3, h2.symm⟩
                · simp [hbb] at h
                · simp [hbb] at h
        · simp [hc] at h
        · simp [hc] at h
      | While c b =>
        simp only [execSeq] at h
        rcases hc : execSeq H f (top :: rest) c with ⟨cf1, s1⟩ | _ | _
        · obtain ⟨t1, rfl⟩ := ih c top rest cf1 s1 hc
          simp only [hc] at h
          rcases hpp : State.pop (t1 :: rest) with _ | ⟨v, s2⟩
          · simp [hpp] at h
          · obtain ⟨t2, rfl⟩ := State.pop_tail hpp
            rcases hb : v.as_bool with _ | bv
            · simp only [hpp, hb] at h
              exact ih _ t2 rest cf s' h
            · cases bv
              · simp only [hpp, hb] at h
                exact ih k t2 rest cf s' h
              · simp only [hpp, hb] at h
                rcases hbb : execSeq H f (t2 :: rest) b with ⟨cf2, s3⟩ | _ | _
                · obtain ⟨t3, rfl⟩ := ih b t2 rest cf2 s3 hbb
                  cases cf2 with
                  | None =>
                    simp only [hbb] at h
                    exact ih _ t3 rest cf s' h
                  | Continue =>
                    simp only [hbb] at h
                    exact ih _ t3 rest cf s' h
                  | Break =>
                    simp only [hbb] at h
                    exact ih k t3 rest cf s' h
                  | Return nn =>
                    simp only [hbb] at h
                    injection h with h1 h2
                    exact ⟨t3, h2.symm⟩
                · simp [hbb] at h
                · simp [hbb] at h
        · simp [hc] at h
        · simp [hc] at h
      | For init c incr b =>
        simp only [execSeq] at h
        rcases init with _ | ini
        · rcases c with _ | cc
          · rcases hbb : execSeq H f (top :: rest) b with ⟨cf2, s3⟩ | _ | _
            · obtain ⟨t3, rfl⟩ := ih b top rest cf2 s3 hbb
              cases cf2 with
              | None =>
                rcases incr with _ | ic
                · simp only [hbb] at h
                  exact ih _ t3 rest cf s' h
                · simp only [hbb] at h
                  rcases hic : execSeq H f (t3 :: rest) ic with ⟨cf3, s4⟩ | _ | _
                  · obtain ⟨t4, rfl⟩ := ih ic t3 rest cf3 s4 hic
                    simp only [hic] at h
                    exact ih _ t4 rest cf s' h
                  · simp [hic] at h
                  · simp [hic] at h
              | Continue =>
                simp only [hbb] at h
                exact ih _ t3 rest cf s' h
              | Break =>
                simp only [hbb] at h
                exact ih k t3 rest cf s' h
              | Return nn =>
                simp only [hbb] at h
                injection h with h1 h2
                exact ⟨t3, h2.symm⟩
            · simp [hbb] at h
            · simp [hbb] at h
          · rcases hcc : execSeq H f (top :: rest) cc with ⟨cf1, s1⟩ | _ | _
            · obtain ⟨t1, rfl⟩ := ih cc top rest cf1 s1 hcc
              simp only [hcc] at h
              rcases hpp : State.pop (t1 :: rest) with _ | ⟨v, s2⟩
              · simp [hpp] at h
              · obtain ⟨t2, rfl⟩ := State.pop_tail hpp
                rcases hb : v.as_bool with _ | bv
                · simp [hpp, hb] at h
                · cases bv
                  · simp only [hpp, hb] at h
                    exact ih k t2 rest cf s' h
                  · simp only [hpp, hb] at h
                    rcases hbb : execSeq H f (t2 :: rest) b with ⟨cf2, s3⟩ | _ | _
                    · obtain ⟨t3, rfl⟩ := ih b t2 rest cf2 s3 hbb
                      cases cf2 with
                      | None =>
                        rcases incr with _ | ic
                        · simp only [hbb] at h
                          exact ih _ t3 rest cf s' h
                        · simp only [hbb] at h
                          rcases hic : execSeq H f (t3 :: rest) ic with ⟨cf3, s4⟩ | _ | _
                          · obtain ⟨t4, rfl⟩ := ih ic t3 rest cf3 s4 hic
                            simp only [hic] at h
                            exact ih _ t4 rest cf s' h
                          · simp [hic] at h
                          · simp [hic] at h
                      | Continue =>
                        simp only [hbb] at h
                        exact ih _ t3 rest cf s' h
                      | Break =>
                        simp only [hbb] at h
                        exact ih k t3 rest cf s' h
                      | Return nn =>
                        simp only [hbb] at h
                        injection h with h1 h2
                        exact ⟨t3, h2.symm⟩
                    · simp [hbb] at h
                    · simp [hbb] at h
            · simp [hcc] at h
            · simp [hcc] at h
        · rcases hi : execSeq H f (top :: rest) ini with ⟨cf1, s1⟩ | _ | _
          · obtain ⟨t1, rfl⟩ := ih ini top rest cf1 s1 hi
            simp only [hi] at h
            exact ih _ t1 rest cf s' h
          · simp [hi] at h
          · simp [hi] at h
      | Loop b =>
        simp only [execSeq] at h
        rcases hbb : execSeq H f (top :: rest) b with ⟨cf2, s3⟩ | _ | _
        · obtain ⟨t3, rfl⟩ := ih b top rest cf2 s3 hbb
          cases cf2 with
          | None =>
            simp only [hbb] at h
            exact ih _ t3 rest cf s' h
          | Continue =>
            simp only [hbb] at h
            exact ih _ t3 rest cf s' h
          | Break =>
            simp only [hbb] at h
            exact ih k t3 rest cf s' h
          | Return nn =>
            simp only [hbb] at h
            injection h with h1 h2
            exact ⟨t3, h2.symm⟩
        · simp [hbb] at h
        · simp [hbb] at h

/-! ## Return-arity invariant

A layer's `Return(m)` signal can only originate from a `Return` opcode in the
layer tree of the code it runs (sub-calls consume their own signals), so code
whose `Return` opcodes all have `n ≤ 1` — which includes everything the
translator emits — only ever signals `Return(m)` with `m ≤ 1`. -/

theorem callProtocolRet {H : FloatHost} {f : Nat} {k : List OpCode} (m0 : Nat)
    {s4 : SState} {m : Nat} {s' : SState}
    (tailIH : ∀ (code : List OpCode) (s : SState) (mm : Nat) (s'' : SState),
        OpCode.retOkList code = true →
        execSeq H f s code = .ok (.Return mm) s'' → mm ≤ 1)
    (hk : OpCode.retOkList k = true)
    (h : (match State.pop_n s4 m0 with
          | some (rets, s5) =>
            match State.pop_frame s5 with
            | some s6 =>
              match State.push_all s6 rets with
              | some s7 => execSeq H f s7 k
              | none => ExecResult.fatal
            | none => ExecResult.fatal
          | none => ExecResult.fatal) = .ok (.Return m) s') : m ≤ 1 := by
  rcases hn2 : State.pop_n s4 m0 with _ | ⟨rets, s5⟩
  · simp [hn2] at h
  · simp only [hn2] at h
    rcases hpf : State.pop_frame s5 with _ | s6
    · simp [hpf] at h
    · simp only [hpf] at h
      rcases ha2 : State.push_all s6 rets with _ | s7
      · simp [ha2] at h
      · simp only [ha2] at h
        exact tailIH k s7 m s' hk h

theorem execSeq_retOk (H : FloatHost) :
    ∀ (fuel : Nat) (code : List OpCode) (s : SState) (m : Nat) (s' : SState),
      OpCode.retOkList code = true →
      execSeq H fuel s code = .ok (.Return m) s' → m ≤ 1 := by
  intro fuel
  induction fuel with
  | zero =>
    intro code s m s' hro h
    cases code with
    | nil => simp only [execSeq] at h; injection h with h1 h2; cases h1
    | cons op k => simp only [execSeq] at h; cases h
  | succ f ih =>
    intro code s m s' hro h
    cases code with
    | nil => simp only [execSeq] at h; injection h with h1 h2; cases h1
    | cons op k =>
      rw [OpCode.retOkList, Bool.and_eq_true] at hro
      obtain ⟨hop, hk⟩ := hro
      cases op with
      | Store name =>
        simp only [execSeq] at h
        rcases hs : State.store_local s name with _ | s1
        · simp [hs] at h
        · simp only [hs] at h
          exact ih k s1 m s' hk h
      | Load name =>
        simp only [execSeq] at h
        rcases hs : State.load s name with _ | s1
        · simp [hs] at h
        · simp only [hs] at h
          exact ih k s1 m s' hk h
      | SetKey key => simp only [execSeq] at h; cases h
      | GetKey key => simp only [execSeq] at h; cases h
      | PushInteger x =>
        simp only [execSeq] at h
        rcases hs : State.push s (int x) with _ | s1
        · simp [hs] at h
        · simp only [hs] at h
          exact ih k s1 m s' hk h
      | PushFloat x =>
        simp only [execSeq] at h
        rcases hs : State.push s (float x) with _ | s1
        · simp [hs] at h
        · simp only [hs] at h
          exact ih k s1 m s' hk h
      | PushString x =>
        simp only [execSeq] at h
        rcases hs : State.push s (string x) with _ | s1
        · simp [hs] at h
        · simp only [hs] at h
          exact ih k s1 m s' hk h
      | PushBool x =>
        simp only [execSeq] at h
        rcases hs : State.push s (boolean x) with _ | s1
        · simp [hs] at h
        · simp only [hs] at h
          exact ih k s1 m s' hk h
      | PushFunction code' =>
        simp only [execSeq] at h
        rcases hs : State.push s (scripted_function code') with _ | s1
        · simp [hs] at h
        · simp only [hs] at h
          exact ih k s1 m s' hk h
      | PushNil =>
        simp only [execSeq] at h
        rcases hs : State.push s nil with _ | s1
        · simp [hs] at h
        · simp only [hs] at h
          exact ih k s1 m s' hk h
      | BinaryOperation kind =>
        simp only [execSeq] at h
        rcases hp : State.pop s with _ | ⟨r, s1⟩
        · simp [hp] at h
        · simp only [hp] at h
          rcases hp2 : State.pop s1 with _ | ⟨l, s2⟩
          · simp [hp2] at h
          · simp only [hp2] at h
            rcases hb : execute_binary_operation H kind l r with _ | v
            · simp [hb] at h
            · simp only [hb] at h
              rcases hpu : State.push s2 v with _ | s3
              · simp [hpu] at h
              · simp only [hpu] at h
                exact ih k s3 m s' hk h
      | UnaryOperation kind =>
        simp only [execSeq] at h
        rcases hp : State.pop s with _ | ⟨x, s1⟩
        · simp [hp] at h
        · simp only [hp] at h
          rcases hu : execute_unary_operation kind x with _ | v
          · simp [hu] at h
          · simp only [hu] at h
            rcases hpu : State.push s1 v with _ | s2
            · simp [hpu] at h
            · simp only [hpu] at h
              exact ih k s2 m s' hk h
      | Call n =>
        simp only [execSeq] at h
        rcases hp : State.pop s with _ | ⟨fo, s1⟩
        · simp [hp] at h
        · rcases fo with p | fn
          · simp [hp] at h
          · simp only [hp] at h
            rcases hn : State.pop_n s1 n with _ | ⟨args, s2⟩
            · simp [hn] at h
            · simp only [hn] at h
              rcases ha : State.push_all (State.push_frame s2) args with _ | s3
              · simp [ha] at h
              · rcases fn with code' | id
                · simp only [ha] at h
                  rcases hrun : execSeq H f s3 code' with ⟨cf2, s4⟩ | _ | _
                  · simp only [hrun] at h
                    exact callProtocolRet _ ih hk h
                  · simp [hrun] at h
                  · simp [hrun] at h
                · simp [ha] at h
      | Return n =>
        simp only [execSeq] at h
        injection h with h1 h2
        injection h1 with h1
        subst h1
        simpa [OpCode.retOk] using hop
      | Break =>
        simp only [execSeq] at h
        injection h with h1 h2
        cases h1
      | Continue =>
        simp only [execSeq] at h
        injection h with h1 h2
        cases h1
      | If c b e =>
        rw [OpCode.retOk, Bool.and_eq_true] at hop
        obtain ⟨hbo, heo⟩ := hop
        simp only [execSeq] at h
        rcases hc : execSeq H f s c with ⟨cf1, s1⟩ | _ | _
        · simp only [hc] at h
          rcases hpp : State.pop s1 with _ | ⟨v, s2⟩
          · simp [hpp] at h
          · rcases hb : v.as_bool with _ | bv
            · simp [hpp, hb] at h
            · cases bv
              · simp only [hpp, hb] at h
                rcases e with _ | eb
                · exact ih k s2 m s' hk h
                · rw [OpCode.retOkOpt] at heo
                  rcases he : execSeq H f s2 eb with ⟨cf2, s3⟩ | _ | _
                  · cases cf2 with
                    | None =>
                      simp only [he] at h
                      exact ih k s3 m s' hk h
                    | Return nn =>
                      simp only [he] at h
                      injection h with h1 h2
                      injection h1 with h1
                      subst h1
                      exact ih eb s2 _ s3 heo he
                    | Break => simp only [he] at h; injection h with h1 h2; cases h1
                    | Continue => simp only [he] at h; injection h with h1 h2; cases h1
                  · simp [he] at h
                  · simp [he] at h
              · simp only [hpp, hb] at h
                rcases hbb : execSeq H f s2 b with ⟨cf2, s3⟩ | _ | _
                · cases cf2 with
                  | None =>
                    simp only [hbb] at h
                    exact ih k s3 m s' hk h
                  | Return nn =>
                    simp only [hbb] at h
                    injection h with h1 h2
                    injection h1 with h1
                    subst h1
                    exact ih b s2 _ s3 hbo hbb
                  | Break => simp only [hbb] at h; injection h with h1 h2; cases h1
                  | Continue => simp only [hbb] at h; injection h with h1 h2; cases h1
                · simp [hbb] at h
                · simp [hbb] at h
        · simp [hc] at h
        · simp [hc] at h
      | While c b =>
        rw [OpCode.retOk] at hop
        simp only [execSeq] at h
        rcases hc : execSeq H f s c with ⟨cf1, s1⟩ | _ | _
        · simp only [hc] at h
          rcases hpp : State.pop s1 with _ | ⟨v, s2⟩
          · simp [hpp] at h
          · rcases hb : v.as_bool with _ | bv
            · simp only [hpp, hb] at h
              refine ih _ s2 m s' ?_ h
              rw [OpCode.retOkList, Bool.and_eq_true]
              exact ⟨by rw [OpCode.retOk]; exact hop, hk⟩
            · cases bv
              · simp only [hpp, hb] at h
                exact ih k s2 m s' hk h
              · simp only [hpp, hb] at h
                rcases hbb : execSeq H f s2 b with ⟨cf2, s3⟩ | _ | _
                · cases cf2 with
                  | None =>
                    simp only [hbb] at h
                    refine ih _ s3 m s' ?_ h
                    rw [OpCode.retOkList, Bool.and_eq_true]
                    exact ⟨by rw [OpCode.retOk]; exact hop, hk⟩
                  | Continue =>
                    simp only [hbb] at h
                    refine ih _ s3 m s' ?_ h
                    rw [OpCode.retOkList, Bool.and_eq_true]
                    exact ⟨by rw [OpCode.retOk]; exact hop, hk⟩
                  | Break =>
                    simp only [hbb] at h
                    exact ih k s3 m s' hk h
                  | Return nn =>
                    simp only [hbb] at h
                    injection h with h1 h2
                    injection h1 with h1
                    subst h1
                    exact ih b s2 _ s3 hop hbb
                · simp [hbb] at h
                · simp [hbb] at h
        · simp [hc] at h
        · simp [hc] at h
      | For init c incr b =>
        rw [OpCode.retOk] at hop
        have hfor : OpCode.retOkList (OpCode.For none c incr b :: k) = true := by
          rw [OpCode.retOkList, Bool.and_eq_true]
          exact ⟨by rw [OpCode.retOk]; exact hop, hk⟩
        simp only [execSeq] at h
        rcases init with _ | ini
        · rcases c with _ | cc
          · rcases hbb : execSeq H f s b with ⟨cf2, s3⟩ | _ | _
            · cases cf2 with
              | None =>
                rcases incr with _ | ic
                · simp only [hbb] at h
                  exact ih _ s3 m s' hfor h
                · simp only [hbb] at h
                  rcases hic : execSeq H f s3 ic with ⟨cf3, s4⟩ | _ | _
                  · simp only [hic] at h
                    exact ih _ s4 m s' hfor h
                  · simp [hic] at h
                  · simp [hic] at h
              | Continue =>
                simp only [hbb] at h
                exact ih _ s3 m s' hfor h
              | Break =>
                simp only [hbb] at h
                exact ih k s3 m s' hk h
              | Return nn =>
                simp only [hbb] at h
                injection h with h1 h2
                injection h1 with h1
                subst h1
                exact ih b s _ s3 hop hbb
            · simp [hbb] at h
            · simp [hbb] at h
          · rcases hcc : execSeq H f s cc with ⟨cf1, s1⟩ | _ | _
            · simp only [hcc] at h
              rcases hpp : State.pop s1 with _ | ⟨v, s2⟩
              · simp [hpp] at h
              · rcases hb : v.as_bool with _ | bv
                · simp [hpp, hb] at h
                · cases bv
                  · simp only [hpp, hb] at h
                    exact ih k s2 m s' hk h
                  · simp only [hpp, hb] at h
                    rcases hbb : execSeq H f s2 b with ⟨cf2, s3⟩ | _ | _
                    · cases cf2 with
                      | None =>
                        rcases incr with _ | ic
                        · simp only [hbb] at h
                          exact ih _ s3 m s' hfor h
                        · simp only [hbb] at h
                          rcases hic : execSeq H f s3 ic with ⟨cf3, s4⟩ | _ | _
                          · simp only [hic] at h
                            exact ih _ s4 m s' hfor h
                          · simp [hic] at h
                          · simp [hic] at h
                      | Continue =>
                        simp only [hbb] at h
                        exact ih _ s3 m s' hfor h
                      | Break =>
                        simp only [hbb] at h
                        exact ih k s3 m s' hk h
                      | Return nn =>
                        simp only [hbb] at h
                        injection h with h1 h2
                        injection h1 with h1
                        subst h1
                        exact ih b s2 _ s3 hop hbb
                    · simp [hbb] at h
                    · simp [hbb] at h
            · simp [hcc] at h
            · simp [hcc] at h
        · rcases hi : execSeq H f s ini with ⟨cf1, s1⟩ | _ | _
          · simp only [hi] at h
            exact ih _ s1 m s' hfor h
          · simp [hi] at h
          · simp [hi] at h
      | Loop b =>
        rw [OpCode.retOk] at hop
        have hloop : OpCode.retOkList (OpCode.Loop b :: k) = true := by
          rw [OpCode.retOkList, Bool.and_eq_true]
          exact ⟨by rw [OpCode.retOk]; exact hop, hk⟩
        simp only [execSeq] at h
        rcases hbb : execSeq H f s b with ⟨cf2, s3⟩ | _ | _
        · cases cf2 with
          | None =>
            simp only [hbb] at h
            exact ih _ s3 m s' hloop h
          | Continue =>
            simp only [hbb] at h
            exact ih _ s3 m s' hloop h
          | Break =>
            simp only [hbb] at h
            exact ih k s3 m s' hk h
          | Return nn =>
            simp only [hbb] at h
            injection h with h1 h2
            injection h1 with h1
            subst h1
            exact ih b s _ s3 hop hbb
        · simp [hbb] at h
        · simp [hbb] at h

/-! ## The Store prologue of a scripted function -/

/-- Running the translator's `Store` prologue: with the arguments on the
fresh frame's operand stack (first parameter's argument on top), the `k`
stores consume them and bind each parameter to its argument, after which the
body runs on the emptied stack. -/
theorem runStores (H : FloatHost) :
    ∀ (params : List String) (args : List Object) (fuel : Nat) (L : Locals)
      (ops : List Object) (rest : List CallFrame) (body : List OpCode),
      args.length = params.length →
      execSeq H (fuel + params.length)
          ({ operands := args ++ ops, locals := L } :: rest)
          (params.map OpCode.Store ++ body)
        = execSeq H fuel
            ({ operands := ops, locals := bindLocals params args L } :: rest) body := by
  intro params
  induction params with
  | nil =>
    intro args fuel L ops rest body hlen
    have hargs : args = [] := List.length_eq_zero.mp (by simpa using hlen)
    subst hargs
    simp [bindLocals]
  | cons p ps ih =>
    intro args fuel L ops rest body hlen
    cases args with
    | nil => simp at hlen
    | cons a args' =>
      have hlen' : args'.length = ps.length := by simpa using hlen
      show execSeq H (fuel + ps.length + 1)
          ({ operands := a :: (args' ++ ops), locals := L } :: rest)
          (OpCode.Store p :: (ps.map OpCode.Store ++ body)) = _
      simp only [execSeq, State.store_local, CallFrame.store_local, CallFrame.pop,
        Option.map]
      rw [ih args' fuel (insertLocal L p a) ops rest body hlen']
      rfl

theorem reverse_short {α : Type} {l : List α} (h : l.length ≤ 1) :
    l.reverse = l := by
  match l with
  | [] => rfl
  | [x] => rfl
  | x :: y :: ys => simp at h

/-! ## Claim C1 -/

/-- C1: the call round trip.  For a scripted function with declared
parameters `params` (the translator's `FunctionDef` lowering emits one
`Store` per parameter in declared order, in front of the translated body),
executing `Call(k)` with the `k` source-order arguments (and the callee) on
the caller's operand stack binds the i-th declared parameter to the i-th
source-order argument in the fresh callee frame, and — when the body layer
finishes with a `Return(m)` signal with at least `m` values on the callee's
operand stack — the call leaves the caller's operand stack with exactly the
`m` returned values on top of its previous contents, in order with the
last-returned value on top (`m ≤ 1` for any translator-emitted body, so the
popped-order transfer preserves the order), while the caller's local scope,
the frames below it, and the total call-frame count are unchanged. -/
theorem C1_call_round_trip (H : FloatHost) (params : List String)
    (bAst : AstNode) (body : Bytecode) (args : List Object) (S : List Object)
    (L : Locals) (frames : List CallFrame) (fuel m : Nat) (endS : SState)
    (hnd : params.Nodup)
    (hlen : args.length = params.length)
    (htrans : translate_node bAst = some body)
    (hret : OpCode.retOkList body = true)
    (hbody : execSeq H fuel
        ({ operands := [], locals := bindLocals params args [] }
          :: { operands := S, locals := L } :: frames) body
        = .ok (.Return m) endS)
    (hstack : m ≤ (endS.headD { operands := [], locals := [] }).operands.length) :
    translate_node (.FunctionDef params bAst)
        = some [.PushFunction (params.map OpCode.Store ++ body)] ∧
    (∀ p a, (p, a) ∈ params.zip args →
      lookupLocal (bindLocals params args []) p = some a) ∧
    ∃ cEnd : CallFrame,
      endS = cEnd :: { operands := S, locals := L } :: frames ∧
      m ≤ 1 ∧
      (cEnd.operands.take m).reverse = cEnd.operands.take m ∧
      execSeq H (fuel + params.length + 1)
          ({ operands :=
               scripted_function (params.map OpCode.Store ++ body) :: (args.reverse ++ S),
             locals := L } :: frames)
          [OpCode.Call params.length]
        = .ok .None
            ({ operands := cEnd.operands.take m ++ S, locals := L } :: frames) := by
  obtain ⟨cEnd, hend⟩ := execSeq_tail H fuel body _ _ _ endS hbody
  subst hend
  have hm1 : m ≤ 1 := execSeq_retOk H fuel body _ m _ hret hbody
  have hstack' : m ≤ cEnd.operands.length := by simpa using hstack
  have hrev : (cEnd.operands.take m).reverse = cEnd.operands.take m := by
    refine reverse_short ?_
    have := List.length_take m cEnd.operands
    omega
  refine ⟨by simp [translate_node, htrans],
    fun p a hpa => bindLocals_lookup params args [] p a hnd hpa,
    cEnd, rfl, hm1, hrev, ?_⟩
  have hal : args.reverse.length = params.length := by simpa using hlen
  have hbound : params.length ≤ (args.reverse ++ S).length := by
    rw [List.length_append, hal]
    omega
  have htk : (args.reverse ++ S).take params.length = args.reverse := by
    rw [← hal]
    exact List.take_left _ _
  have hdr : (args.reverse ++ S).drop params.length = S := by
    rw [← hal]
    exact List.drop_left _ _
  have hpn := State.pop_n_take params.length
      { operands := args.reverse ++ S, locals := L } frames hbound
  rw [htk, hdr] at hpn
  have hrs := runStores H params args fuel [] []
      ({ operands := S, locals := L } :: frames) body hlen
  simp only [List.append_nil] at hrs
  rw [hbody] at hrs
  have hpn2 := State.pop_n_take m cEnd
      ({ operands := S, locals := L } :: frames) hstack'
  simp only [execSeq, State.pop, CallFrame.pop, scripted_function, Option.map]
  simp only [hpn, State.push_frame, State.push_all_cons, List.reverse_reverse,
    List.append_nil]
  rw [hrs]
  simp only [hpn2, State.pop_frame, State.push_all_cons, hrev, execSeq]

/-- C1 witness: the round trip applied to the concrete two-parameter
function `fn(a, b) { return a; }` called with arguments `10` and `3`. -/
theorem C1_witness :
    (execSeq trivialFloatHost 5
        ({ operands := [], locals := bindLocals ["a", "b"] [int 10, int 3] [] }
          :: { operands := [], locals := [] } :: [])
        [.Load "a", .Return 1]
      = .ok (.Return 1)
          ({ operands := [int 10], locals := bindLocals ["a", "b"] [int 10, int 3] [] }
            :: { operands := [], locals := [] } :: [])) ∧
    lookupLocal (bindLocals ["a", "b"] [int 10, int 3] []) "a" = some (int 10) ∧
    execSeq trivialFloatHost 8
        ({ operands := scripted_function [.Store "a", .Store "b", .Load "a", .Return 1]
              :: [int 3, int 10],
           locals := [] } :: [])
        [OpCode.Call 2]
      = .ok .None ({ operands := [int 10], locals := [] } :: []) := by
  have hmain := C1_call_round_trip trivialFloatHost ["a", "b"]
      (.Return (some (.Identifier "a"))) [.Load "a", .Return 1]
      [int 10, int 3] [] [] [] 5 1
      ({ operands := [int 10], locals := bindLocals ["a", "b"] [int 10, int 3] [] }
        :: { operands := [], locals := [] } :: [])
      (by simp) rfl (by simp [translate_node, translate_opt])
      (by simp [OpCode.retOkList, OpCode.retOk]) rfl (by simp)
  obtain ⟨htr, hbind, cEnd, hEnd, hm1, hrevq, hexec⟩ := hmain
  injection hEnd with h1 h2
  refine ⟨rfl, hbind "a" (int 10) (List.mem_cons_self _ _), ?_⟩
  rw [← h1] at hexec
  simpa using hexec

end Scripty
